import Mathlib

/-!
Shallow embedding of the category-ordering core of the alluvial-map
repository: the label normalizer (src/viz/preprocess.js), the aggregator
(src/viz/preprocess.js) and the barycentric crossing reducer
(src/viz/ordering.js), together with theorems checking the specification
claims against these definitions.

JS `Map` objects are modelled as association lists in insertion order:
`get` returns the first binding, `set` overwrites an existing binding in
place (keeping its position) or appends a new one, and iteration follows
the list order, exactly as JS `Map` iteration follows insertion order.
JS numbers occurring in the core (link weights, barycentric scores,
iteration counts) are modelled as rationals; all the quantities the core
manipulates are small integers and exact divisions of them, so `ℚ` is a
faithful model of the float arithmetic actually performed.
-/

namespace Alluvial

/-- Association-list model of a JS `Map`: lookup of the first binding. -/
def jget {K V : Type} [DecidableEq K] : List (K × V) → K → Option V
  | [], _ => none
  | p :: m, k => if p.1 = k then some p.2 else jget m k

/-- Association-list model of `Map.set`: overwrite in place or append. -/
def jset {K V : Type} [DecidableEq K] : List (K × V) → K → V → List (K × V)
  | [], k, v => [(k, v)]
  | p :: m, k, v => if p.1 = k then (k, v) :: m else p :: jset m k v

/-- The keys of a JS map, in insertion order. -/
def jkeys {K V : Type} (m : List (K × V)) : List K := m.map (·.1)

theorem jget_jset {K V : Type} [DecidableEq K] (m : List (K × V)) (k : K) (v : V)
    (k' : K) : jget (jset m k v) k' = if k' = k then some v else jget m k' := by
  induction m with
  | nil =>
    by_cases hk : k' = k
    · subst hk; simp [jget, jset]
    · have hk2 : ¬ k = k' := fun h => hk h.symm
      simp [jget, jset, hk, hk2]
  | cons p m ih =>
    by_cases hpk : p.1 = k
    · by_cases hk : k' = k
      · subst hk; simp [jget, jset, hpk]
      · have hk2 : ¬ k = k' := fun h => hk h.symm
        have hp2 : ¬ p.1 = k' := hpk ▸ hk2
        simp [jget, jset, hpk, hk, hk2, hp2]
    · by_cases hp : p.1 = k'
      · have hk : ¬ k' = k := fun h => hpk (hp.trans h)
        simp [jget, jset, hpk, hp, hk]
      · simp [jget, jset, hpk, hp, ih]

theorem jkeys_cons {K V : Type} (p : K × V) (m : List (K × V)) :
    jkeys (p :: m) = p.1 :: jkeys m := rfl

theorem jget_isSome_iff_mem {K V : Type} [DecidableEq K] (m : List (K × V)) (k : K) :
    (jget m k).isSome = true ↔ k ∈ jkeys m := by
  induction m with
  | nil => simp [jget, jkeys]
  | cons p m ih =>
    by_cases hp : p.1 = k
    · subst hp
      simp [jget, jkeys]
    · simp only [jget, if_neg hp, jkeys_cons, List.mem_cons]
      rw [ih]
      exact ⟨Or.inr, fun h => h.resolve_left (fun h2 => hp h2.symm)⟩

theorem jget_eq_none_iff {K V : Type} [DecidableEq K] (m : List (K × V)) (k : K) :
    jget m k = none ↔ k ∉ jkeys m := by
  rw [← jget_isSome_iff_mem]
  cases jget m k <;> simp

theorem jkeys_jset {K V : Type} [DecidableEq K] (m : List (K × V)) (k : K) (v : V) :
    jkeys (jset m k v) = if k ∈ jkeys m then jkeys m else jkeys m ++ [k] := by
  induction m with
  | nil => simp [jset, jkeys]
  | cons p m ih =>
    by_cases hpk : p.1 = k
    · have hmem : k ∈ jkeys (p :: m) := by
        rw [jkeys_cons]
        exact List.mem_cons.mpr (Or.inl hpk.symm)
      rw [if_pos hmem]
      simp only [jset, if_pos hpk, jkeys_cons, hpk]
      rfl
    · simp only [jset, if_neg hpk, jkeys_cons]
      by_cases hm : k ∈ jkeys m
      · rw [if_pos (List.mem_cons.mpr (Or.inr hm)), ih, if_pos hm]
      · rw [if_neg (fun h => (List.mem_cons.mp h).elim (fun h2 => hpk h2.symm) hm),
          ih, if_neg hm, List.cons_append]

theorem jkeys_jset_nodup {K V : Type} [DecidableEq K] {m : List (K × V)} (k : K) (v : V)
    (h : (jkeys m).Nodup) : (jkeys (jset m k v)).Nodup := by
  rw [jkeys_jset]
  split
  · exact h
  · next hk => simp [List.nodup_append, h, hk]

/-! ### Label normalization (src/viz/preprocess.js) -/

/-- Whitespace characters recognised by the JS `String.prototype.trim`
(ASCII whitespace, NBSP and the BOM; exotic Unicode space separators are
not needed by any claim). -/
def jsIsWs (c : Char) : Bool :=
  c == ' ' || c == '\t' || c == '\n' || c == '\r' ||
  c == '\x0b' || c == '\x0c' || c == ' ' || c == '﻿'

/-- Model of the JS `String.prototype.trim`. -/
def jsTrim (s : String) : String :=
  String.mk (((s.toList.dropWhile jsIsWs).reverse.dropWhile jsIsWs).reverse)

/-- Decimal value of a digit character. -/
def digitVal (c : Char) : Nat := c.toNat - '0'.toNat

/-- Value of a (nonempty) digit string, as computed by JS `Number` on the
capture group of `/^P(\d+)$/` (leading zeros allowed). -/
def digitsToNat (cs : List Char) : Nat := cs.foldl (fun a c => 10 * a + digitVal c) 0

/-- Model of matching a string against the regex `^P(\d+)$` with the `i`
flag, where `P` is a literal letter pattern: on success, returns the
numeric value of the digit capture group. -/
def reMatchCI (pat : String) (s : String) : Option Nat :=
  let lp := pat.toList
  let front := s.toList.take lp.length
  let rest := s.toList.drop lp.length
  if front.length == lp.length
      && (front.zip lp).all (fun pc => pc.1.toLower == pc.2.toLower)
      && !rest.isEmpty && rest.all (·.isDigit)
  then some (digitsToNat rest) else none

/-- Embedding of `normConceptCluster` (src/viz/preprocess.js lines 30-55):
normalises Concept Cluster labels so nodes/links use DC1..DC6
consistently. -/
def normConceptCluster (v : String) : String :=
  let s := jsTrim v
  if s = "" then ""
  else
    match reMatchCI "DC" s with
    | some n => "DC" ++ toString n
    | none =>
      match reMatchCI "C" s with
      | some n =>
        if n = 0 then "DC1"
        else if 0 ≤ n ∧ n ≤ 5 then "DC" ++ toString (n + 1)
        else if 1 ≤ n ∧ n ≤ 6 then "DC" ++ toString n
        else "DC" ++ toString n
      | none => s

/-- The sentinel label for blank values (src/viz/preprocess.js line 58). -/
def MISSING_LABEL : String := "Missing"

/-- Embedding of `normLabel` (src/viz/preprocess.js lines 60-64); the raw
value is an `Option` because a row may lack the axis field entirely
(JS `r[axis]` is then `undefined`, and `String(raw ?? "")` yields `""`). -/
def normLabel (axis : String) (raw : Option String) : String :=
  let label0 := jsTrim (raw.getD "")
  let label1 := if axis = "Design-Concept" then normConceptCluster label0 else label0
  if label1 = "" then MISSING_LABEL else label1

/-! ### Crossing reducer (src/viz/ordering.js) -/

/-- One entry of the `axisInfo` array built by `preprocess`: axis name,
axis position index, ordered category list and per-category totals. -/
structure AxisEntry where
  axis : String
  index : Nat
  categories : List String
  totalsByCategory : List (String × Nat)
deriving DecidableEq, Inhabited, Repr

/-- One aggregated link (a value of the `linkAgg` map): endpoint node ids
and weight; `byCluster` holds per-colour counts (unused by the reducer). -/
structure LinkDatum where
  source : String
  target : String
  value : ℚ
  byCluster : List (String × ℚ)
deriving DecidableEq, Inhabited, Repr

/-- First occurrence of `"::"` in a character list: the parts before and
after it (model of `id.indexOf("::")` and the two slices). -/
def splitSep : List Char → Option (List Char × List Char)
  | [] => none
  | ':' :: ':' :: rest => some ([], rest)
  | c :: rest => (splitSep rest).map (fun p => (c :: p.1, p.2))

/-- Embedding of `splitNodeId` (src/viz/ordering.js lines 7-11). -/
def splitNodeId (id : String) : String × String :=
  match splitSep id.toList with
  | none => ("", id)
  | some (a, l) => (String.mk a, String.mk l)

/-- A JS `Map` built from an entry list (entries inserted in order). -/
def jofList {K V : Type} [DecidableEq K] (l : List (K × V)) : List (K × V) :=
  l.foldl (fun m p => jset m p.1 p.2) []

/-- The `axisPosByName` map of `buildPairLinks`: axis name to array
position. -/
def axisPosByName (axisInfo : List AxisEntry) : List (String × Nat) :=
  jofList (axisInfo.enum.map (fun p => (p.2.axis, p.1)))

/-- `pairLinks[i]` maps a source label to a map from target label to
accumulated weight, for links between axis `i` and axis `i+1`. -/
abbrev PairLinks := List (List (String × List (String × ℚ)))

/-- Embedding of `acc` inside `buildPairLinks`: add weight `w` to the
`(srcLabel, tgtLabel)` bucket of `pairLinks[i]`. -/
def accPairAt (pls : PairLinks) (i : Nat) (srcLabel tgtLabel : String) (w : ℚ) :
    PairLinks :=
  let m := pls.getD i []
  let inner := (jget m srcLabel).getD []
  pls.set i (jset m srcLabel (jset inner tgtLabel ((jget inner tgtLabel).getD 0 + w)))

/-- One step of the `buildPairLinks` loop over `linkAgg.values()`: keep a
link only if both axis names are known and the axis positions are exactly
adjacent (`p1 = p0 + 1`); `d.value || 0` is the identity on our exact
rational weights. -/
def bplStep (axisPos : List (String × Nat)) (pls : PairLinks) (d : LinkDatum) :
    PairLinks :=
  match jget axisPos (splitNodeId d.source).1, jget axisPos (splitNodeId d.target).1 with
  | some p0, some p1 =>
      if p1 = p0 + 1 then
        accPairAt pls p0 (splitNodeId d.source).2 (splitNodeId d.target).2 d.value
      else pls
  | _, _ => pls

/-- Embedding of `buildPairLinks` (src/viz/ordering.js lines 13-42). -/
def buildPairLinks (axisInfo : List AxisEntry) (linkAgg : List (String × LinkDatum)) :
    PairLinks :=
  (linkAgg.map (·.2)).foldl (bplStep (axisPosByName axisInfo))
    (List.replicate (axisInfo.length - 1) [])

/-- Embedding of `refreshPos`: position map of a category list, built by
`forEach((lab, idx) => set(lab, idx))`, later bindings overriding earlier
ones. The source keeps `pos[i]` incrementally, refreshing it from
`axisInfo[i].categories` initially and after each reorder of axis `i`, so
at every use `pos[i]` equals this map of the current category list. -/
def mkPosGo : List (String × Nat) → Nat → List String → List (String × Nat)
  | m, _, [] => m
  | m, i, c :: cs => mkPosGo (jset m c i) (i + 1) cs

/-- Position map of the current category list (see `mkPosGo`). -/
def mkPos (cats : List String) : List (String × Nat) := mkPosGo [] 0 cats

/-- Embedding of `splitMissing` (src/viz/ordering.js lines 61-65): the
non-sentinel categories and whether the sentinel must be re-appended.
A JS string is truthy exactly when nonempty. -/
def splitMissing (missingLabel : String) (categories : List String)
    (totalsByCategory : List (String × Nat)) : List String × Bool :=
  let missingCount := if missingLabel ≠ "" then (jget totalsByCategory missingLabel).getD 0 else 0
  let base := if missingLabel ≠ "" then categories.filter (fun l => l ≠ missingLabel) else categories
  (base, if missingLabel ≠ "" then decide (0 < missingCount) else false)

/-- The JS sort comparator inside `applyReorder` (lines 73-84), as a
signed rational: negative puts `u` first, positive puts `v` first. -/
def jsCmp (scores : List (String × ℚ)) (currentPos : List (String × Nat)) (u v : String) :
    ℚ :=
  match jget scores u, jget scores v with
  | none, none => ((jget currentPos u).getD 0 : ℚ) - ((jget currentPos v).getD 0 : ℚ)
  | none, some _ => 1
  | some _, none => -1
  | some su, some sv =>
      if su ≠ sv then su - sv
      else ((jget currentPos u).getD 0 : ℚ) - ((jget currentPos v).getD 0 : ℚ)

/-- Boolean order corresponding to the comparator (`u` may precede `v`);
a JS stable `Array.prototype.sort` with comparator `c` is a stable merge
sort with respect to `c u v ≤ 0`. -/
def catLe (scores : List (String × ℚ)) (currentPos : List (String × Nat)) (u v : String) :
    Bool :=
  decide (jsCmp scores currentPos u v ≤ 0)

/-- Embedding of `applyReorder` (src/viz/ordering.js lines 67-88). -/
def applyReorder (missingLabel : String) (st : List AxisEntry) (i : Nat)
    (scores : List (String × ℚ)) : List AxisEntry :=
  let a := st.getD i default
  let bm := splitMissing missingLabel a.categories a.totalsByCategory
  let currentPos := mkPos a.categories
  let sorted := bm.1.mergeSort (catLe scores currentPos)
  let newCats := if bm.2 then sorted ++ [missingLabel] else sorted
  st.set i { a with categories := newCats }

/-- Inner loop of `scoresFromPrev`: accumulate `w * p` into `num` and `w`
into `den` for every positively weighted edge out of a source at
position `p` (`num` and `den` are the two maps of the source). -/
def accTgts (p : Nat) (num den : List (String × ℚ)) : List (String × ℚ) →
    List (String × ℚ) × List (String × ℚ)
  | [] => (num, den)
  | (tgt, w) :: rest =>
      if w ≤ 0 then accTgts p num den rest
      else accTgts p
        (jset num tgt ((jget num tgt).getD 0 + w * p))
        (jset den tgt ((jget den tgt).getD 0 + w)) rest

/-- Outer loop of `scoresFromPrev`: sources without a known previous
position are skipped. -/
def accSrcs (prevPos : List (String × Nat)) (num den : List (String × ℚ)) :
    List (String × List (String × ℚ)) →
    List (String × ℚ) × List (String × ℚ)
  | [] => (num, den)
  | (src, toMap) :: rest =>
      match jget prevPos src with
      | none => accSrcs prevPos num den rest
      | some p =>
          accSrcs prevPos (accTgts p num den toMap).1 (accTgts p num den toMap).2 rest

/-- Final loop of `scoresFromPrev`: set `num/den` whenever `den > 0`. -/
def divideScores (den : List (String × ℚ)) :
    List (String × ℚ) → List (String × ℚ) → List (String × ℚ)
  | acc, [] => acc
  | acc, (tgt, n) :: rest =>
      let d := (jget den tgt).getD 0
      divideScores den (if 0 < d then jset acc tgt (n / d) else acc) rest

/-- The current category list of axis `i`. -/
def catsAt (st : List AxisEntry) (i : Nat) : List String := (st.getD i default).categories

/-- Embedding of `scoresFromPrev` (src/viz/ordering.js lines 91-117). -/
def scoresFromPrev (st : List AxisEntry) (pls : PairLinks) (i : Nat) :
    List (String × ℚ) :=
  if i = 0 then []
  else
    let prevPos := mkPos (catsAt st (i - 1))
    let links := pls.getD (i - 1) []
    let nd := accSrcs prevPos [] [] links
    divideScores nd.2 [] nd.1

/-- Inner loop of `scoresFromNext`: accumulate over targets with a known
next-axis position and positive weight (`n` and `d` are the two local
accumulators of the source). -/
def accNext (nextPos : List (String × Nat)) (n d : ℚ) : List (String × ℚ) → ℚ × ℚ
  | [] => (n, d)
  | (tgt, w) :: rest =>
      match jget nextPos tgt with
      | none => accNext nextPos n d rest
      | some p =>
          if w ≤ 0 then accNext nextPos n d rest
          else accNext nextPos (n + w * p) (d + w) rest

/-- Outer loop of `scoresFromNext`: set `n/d` per source when `d > 0`. -/
def collectNext (nextPos : List (String × Nat)) :
    List (String × ℚ) → List (String × List (String × ℚ)) → List (String × ℚ)
  | acc, [] => acc
  | acc, (src, toMap) :: rest =>
      let nd := accNext nextPos 0 0 toMap
      collectNext nextPos (if 0 < nd.2 then jset acc src (nd.1 / nd.2) else acc) rest

/-- Embedding of `scoresFromNext` (src/viz/ordering.js lines 120-139);
the guard `i >= nAxes - 1` over JS numbers is `nAxes ≤ i + 1` on `Nat`. -/
def scoresFromNext (st : List AxisEntry) (pls : PairLinks) (i : Nat) :
    List (String × ℚ) :=
  if st.length ≤ i + 1 then []
  else collectNext (mkPos (catsAt st (i + 1))) [] (pls.getD i [])

/-- One forward-sweep visit of axis `i` (skipped when locked). -/
def fwdStep (missingLabel : String) (pls : PairLinks) (lockPos : Option Nat)
    (st : List AxisEntry) (i : Nat) : List AxisEntry :=
  if lockPos = some i then st
  else applyReorder missingLabel st i (scoresFromPrev st pls i)

/-- One backward-sweep visit of axis `i` (skipped when locked). -/
def bwdStep (missingLabel : String) (pls : PairLinks) (lockPos : Option Nat)
    (st : List AxisEntry) (i : Nat) : List AxisEntry :=
  if lockPos = some i then st
  else applyReorder missingLabel st i (scoresFromNext st pls i)

/-- One iteration of the reducer: forward sweep over `i = 1 .. nAxes-1`,
then backward sweep over `i = nAxes-2 .. 0`. -/
def oneIteration (missingLabel : String) (pls : PairLinks) (lockPos : Option Nat)
    (nAxes : Nat) (st : List AxisEntry) : List AxisEntry :=
  let st1 := (List.range' 1 (nAxes - 1)).foldl (fwdStep missingLabel pls lockPos) st
  ((List.range (nAxes - 1)).reverse).foldl (bwdStep missingLabel pls lockPos) st1

/-- A JS number as passed for `iterations`: finite (modelled exactly as a
rational) or one of the non-finite values. -/
inductive JSNum where
  | finite (q : ℚ)
  | nan
  | posInf
  | negInf
deriving DecidableEq

/-- Trip count of the JS loop `for (let it = 0; it < iters; it++)` for a
finite bound: the number of naturals strictly below `iters`. -/
def loopCount (q : ℚ) : Nat := if q ≤ 0 then 0 else (⌈q⌉).toNat

/-- Effective number of iterations actually run: the source replaces a
non-finite `iterations` by 6 (`Number.isFinite(iterations) ? iterations
: 6`) and then runs the counted loop. -/
def effIters : JSNum → Nat
  | .finite q => loopCount q
  | _ => loopCount 6

/-- Embedding of `reorderBarycentricAxisInfo` (src/viz/ordering.js lines
44-155); `findIndex` returning -1 is modelled by `findIdx?` returning
`none` (the lock comparison `i === lockPos` then never holds). -/
def reorderBarycentricAxisInfo (axisInfo : List AxisEntry) (pls : PairLinks)
    (lockAxisName missingLabel : String) (iterations : JSNum) : List AxisEntry :=
  if axisInfo.length ≤ 2 then axisInfo
  else
    let lockPos := axisInfo.findIdx? (fun a => a.axis = lockAxisName)
    (oneIteration missingLabel pls lockPos axisInfo.length)^[effIters iterations] axisInfo

/-- Embedding of the public `reduceCrossings` (src/viz/ordering.js lines
161-170); the source mutates `axisInfo` in place, here the new value is
returned. -/
def reduceCrossings (axisInfo : List AxisEntry) (linkAgg : List (String × LinkDatum))
    (lockAxisName missingLabel : String) (iterations : JSNum) : List AxisEntry :=
  reorderBarycentricAxisInfo axisInfo (buildPairLinks axisInfo linkAgg)
    lockAxisName missingLabel iterations

/-! ### Helper lemmas -/

theorem effIters_finite (q : ℚ) : effIters (.finite q) = loopCount q := rfl

theorem effIters_finite_zero : effIters (.finite 0) = 0 := by
  rw [effIters_finite]
  simp [loopCount]

theorem effIters_natCast (n : Nat) : effIters (.finite (n : ℚ)) = n := by
  rw [effIters_finite]
  unfold loopCount
  by_cases hn : (n : ℚ) ≤ 0
  · rw [if_pos hn]
    have : n = 0 := Nat.cast_nonpos.mp hn
    omega
  · rw [if_neg hn, Int.ceil_natCast]
    simp

theorem jsTrim_eq_empty_of_ws {raw : String} (h : ∀ c ∈ raw.toList, jsIsWs c = true) :
    jsTrim raw = "" := by
  have h1 : raw.toList.dropWhile jsIsWs = [] := List.dropWhile_eq_nil_iff.mpr h
  unfold jsTrim
  rw [h1]
  rfl

theorem normLabel_of_trim_empty (axis : String) (raw : Option String)
    (h : jsTrim (raw.getD "") = "") : normLabel axis raw = MISSING_LABEL := by
  unfold normLabel
  rw [h]
  have hD : normConceptCluster "" = "" := by decide
  by_cases ha : axis = "Design-Concept" <;> simp [ha, hD]

/-! ### Example inputs used by witness theorems -/

/-- A two-axis configuration. -/
def exState2 : List AxisEntry :=
  [⟨"A", 0, ["x", "y"], [("x", 2), ("y", 1)]⟩, ⟨"B", 1, ["u"], [("u", 3)]⟩]

/-- A three-axis configuration with a sentinel bucket on the middle axis. -/
def exState3 : List AxisEntry :=
  [⟨"L", 0, ["A", "B"], [("A", 1), ("B", 1)]⟩,
   ⟨"M", 1, ["Y", "X", "Missing"], [("X", 1), ("Y", 1), ("Missing", 2)]⟩,
   ⟨"R", 2, ["P"], [("P", 2)]⟩]

/-- Aggregated links for `exState3`. -/
def exLinks : List (String × LinkDatum) :=
  [("L::A-->M::X", ⟨"L::A", "M::X", 5, [("A", 5)]⟩),
   ("L::B-->M::Y", ⟨"L::B", "M::Y", 5, [("B", 5)]⟩),
   ("M::X-->R::P", ⟨"M::X", "R::P", 5, [("A", 5)]⟩),
   ("M::Y-->R::P", ⟨"M::Y", "R::P", 5, [("B", 5)]⟩)]

/-! ### Claims -/

/-- Claim C4: for every axis configuration and link aggregate, calling the
reducer with iterations = 0 leaves every axis's category list equal to its
input per-axis ordering (a strict no-op: the whole `axisInfo` is
returned unchanged). -/
theorem claim_C4_iterations_zero_noop (axisInfo : List AxisEntry)
    (linkAgg : List (String × LinkDatum)) (lockAxisName missingLabel : String) :
    reduceCrossings axisInfo linkAgg lockAxisName missingLabel (.finite 0) = axisInfo := by
  unfold reduceCrossings reorderBarycentricAxisInfo
  rw [effIters_finite_zero]
  split <;> simp

/-- Claim C5: for every axis sequence of length at most 2, invoking the
crossing reducer leaves every axis's category list unchanged (the whole
`axisInfo` is returned unchanged). -/
theorem claim_C5_short_axis_noop (axisInfo : List AxisEntry)
    (linkAgg : List (String × LinkDatum)) (lockAxisName missingLabel : String)
    (iterations : JSNum) (h : axisInfo.length ≤ 2) :
    reduceCrossings axisInfo linkAgg lockAxisName missingLabel iterations = axisInfo := by
  unfold reduceCrossings reorderBarycentricAxisInfo
  rw [if_pos h]

/-- Witness for claim C5 at a concrete two-axis configuration. -/
theorem claim_C5_witness :
    exState2.length ≤ 2 ∧
    reduceCrossings exState2 exLinks "A" "Missing" (.finite 6) = exState2 :=
  ⟨by decide, claim_C5_short_axis_noop exState2 exLinks "A" "Missing" (.finite 6) (by decide)⟩

/-- Claim C10: the reduction always terminates after a finite number of
sweeps: iteration `k` of the JS loop runs exactly when `k < iterations`
(so a finite `iterations` value `q` runs `max 0 ⌈q⌉` iterations, and a
finite negative value runs none), every non-finite `iterations` value
(NaN, plus or minus infinity) is replaced by the default 6, and every
run of `reduceCrossings` equals a run with some finite natural iteration
count. -/
theorem claim_C10_iteration_count :
    (∀ (q : ℚ) (k : Nat), k < effIters (.finite q) ↔ (k : ℚ) < q)
    ∧ effIters .nan = 6 ∧ effIters .posInf = 6 ∧ effIters .negInf = 6
    ∧ (∀ q : ℚ, (effIters (.finite q) : ℤ) = max 0 ⌈q⌉)
    ∧ (∀ axisInfo linkAgg lockAxisName missingLabel it,
        reduceCrossings axisInfo linkAgg lockAxisName missingLabel it
          = reduceCrossings axisInfo linkAgg lockAxisName missingLabel
              (.finite (effIters it))) := by
  have key : ∀ (q : ℚ) (k : Nat), k < effIters (.finite q) ↔ (k : ℚ) < q := by
    intro q k
    rw [effIters_finite]
    unfold loopCount
    by_cases hq : q ≤ 0
    · rw [if_pos hq]
      constructor
      · intro h; exact absurd h (Nat.not_lt_zero k)
      · intro h; exact absurd (h.trans_le hq) (not_lt.mpr (Nat.cast_nonneg k))
    · rw [if_neg hq]
      push_neg at hq
      have h0 : (0 : ℤ) ≤ ⌈q⌉ := le_of_lt (Int.ceil_pos.mpr hq)
      constructor
      · intro h
        have h3 : (k : ℤ) < ⌈q⌉ := by omega
        exact_mod_cast Int.lt_ceil.mp h3
      · intro h
        have h2 : (k : ℤ) < ⌈q⌉ := Int.lt_ceil.mpr (by exact_mod_cast h)
        omega
  have hsix : effIters .nan = 6 ∧ effIters .posInf = 6 ∧ effIters .negInf = 6 := by
    refine ⟨?_, ?_, ?_⟩ <;>
      · show loopCount 6 = 6
        have : ((6 : Nat) : ℚ) = (6 : ℚ) := by norm_num
        have h6 := effIters_natCast 6
        rw [effIters_finite, this] at h6
        exact h6
  refine ⟨key, hsix.1, hsix.2.1, hsix.2.2, ?_, ?_⟩
  · intro q
    rw [effIters_finite]
    unfold loopCount
    by_cases hq : q ≤ 0
    · rw [if_pos hq]
      have hc : ⌈q⌉ ≤ 0 := Int.ceil_le.mpr (by exact_mod_cast hq)
      omega
    · rw [if_neg hq]
      push_neg at hq
      have h0 : (0 : ℤ) ≤ ⌈q⌉ := le_of_lt (Int.ceil_pos.mpr hq)
      have htn := Int.toNat_of_nonneg h0
      omega
  · intro axisInfo linkAgg lockAxisName missingLabel it
    unfold reduceCrossings reorderBarycentricAxisInfo
    rw [effIters_natCast]

/-- Claim C6 counterexample: the label normalizer maps the legacy label
"C3" (n = 3, within [1,6]) to "DC4", not to "DC3" as the claim states:
the source prefers the 0-based interpretation for n in [1,5]. -/
theorem claim_C6_counterexample :
    normLabel "Design-Concept" (some "C3") = "DC4" ∧
    normLabel "Design-Concept" (some "C3") ≠ "DC3" := by decide

/-- Claim C6 amended: on the cluster axis a legacy label "C" ++ n with n
in [1,5] maps to "DC" ++ (n+1) (the 0-based interpretation is preferred),
and only "C6" keeps its index, mapping to "DC6". -/
theorem claim_C6_amended :
    normLabel "Design-Concept" (some "C1") = "DC2" ∧
    normLabel "Design-Concept" (some "C2") = "DC3" ∧
    normLabel "Design-Concept" (some "C3") = "DC4" ∧
    normLabel "Design-Concept" (some "C4") = "DC5" ∧
    normLabel "Design-Concept" (some "C5") = "DC6" ∧
    normLabel "Design-Concept" (some "C6") = "DC6" := by decide

/-- Claim C8: on any axis, a raw value that is empty or consists only of
whitespace normalizes to the sentinel label, and so does an absent value
(the row is not rejected). -/
theorem claim_C8_blank_to_sentinel (axis : String) (raw : String)
    (h : ∀ c ∈ raw.toList, jsIsWs c = true) :
    normLabel axis (some raw) = MISSING_LABEL ∧ normLabel axis none = MISSING_LABEL := by
  constructor
  · exact normLabel_of_trim_empty axis (some raw) (jsTrim_eq_empty_of_ws h)
  · exact normLabel_of_trim_empty axis none (by decide)

/-- Witness for claim C8 at a concrete whitespace-only value and axis. -/
theorem claim_C8_witness :
    (∀ c ∈ "  ".toList, jsIsWs c = true) ∧
    (normLabel "Sensory Modality" (some "  ") = MISSING_LABEL ∧
      normLabel "Sensory Modality" none = MISSING_LABEL) :=
  ⟨by decide, claim_C8_blank_to_sentinel "Sensory Modality" "  " (by decide)⟩

/-! ### Locked axis preservation (claim C3) -/

theorem applyReorder_get_ne (missingLabel : String) (st : List AxisEntry) (i : Nat)
    (scores : List (String × ℚ)) (j : Nat) (h : i ≠ j) :
    (applyReorder missingLabel st i scores)[j]? = st[j]? := by
  unfold applyReorder
  exact List.getElem?_set_ne h

theorem fwdStep_get_locked (missingLabel : String) (pls : PairLinks) (j : Nat)
    (st : List AxisEntry) (i : Nat) :
    (fwdStep missingLabel pls (some j) st i)[j]? = st[j]? := by
  unfold fwdStep
  by_cases h : (some j : Option Nat) = some i
  · rw [if_pos h]
  · rw [if_neg h]
    exact applyReorder_get_ne _ _ _ _ _ (fun he => h (by rw [he]))

theorem bwdStep_get_locked (missingLabel : String) (pls : PairLinks) (j : Nat)
    (st : List AxisEntry) (i : Nat) :
    (bwdStep missingLabel pls (some j) st i)[j]? = st[j]? := by
  unfold bwdStep
  by_cases h : (some j : Option Nat) = some i
  · rw [if_pos h]
  · rw [if_neg h]
    exact applyReorder_get_ne _ _ _ _ _ (fun he => h (by rw [he]))

theorem foldl_fwdStep_get_locked (missingLabel : String) (pls : PairLinks) (j : Nat)
    (is : List Nat) : ∀ st : List AxisEntry,
    (is.foldl (fwdStep missingLabel pls (some j)) st)[j]? = st[j]? := by
  induction is with
  | nil => intro st; rfl
  | cons a as ih =>
    intro st
    rw [List.foldl_cons, ih, fwdStep_get_locked]

theorem foldl_bwdStep_get_locked (missingLabel : String) (pls : PairLinks) (j : Nat)
    (is : List Nat) : ∀ st : List AxisEntry,
    (is.foldl (bwdStep missingLabel pls (some j)) st)[j]? = st[j]? := by
  induction is with
  | nil => intro st; rfl
  | cons a as ih =>
    intro st
    rw [List.foldl_cons, ih, bwdStep_get_locked]

theorem oneIteration_get_locked (missingLabel : String) (pls : PairLinks) (j n : Nat)
    (st : List AxisEntry) :
    (oneIteration missingLabel pls (some j) n st)[j]? = st[j]? := by
  unfold oneIteration
  rw [foldl_bwdStep_get_locked, foldl_fwdStep_get_locked]

theorem iterate_get_locked (missingLabel : String) (pls : PairLinks) (j n k : Nat) :
    ∀ st : List AxisEntry,
    ((oneIteration missingLabel pls (some j) n)^[k] st)[j]? = st[j]? := by
  induction k with
  | zero => intro st; rfl
  | succ k ih =>
    intro st
    rw [Function.iterate_succ_apply, ih, oneIteration_get_locked]

/-- Claim C3: whenever some axis matches the locked-axis name, the locked
axis (the first match, as `findIndex` finds it) is completely frozen:
after `reduceCrossings` its entry - in particular its ordered category
list - is exactly the entry it had before reduction. -/
theorem claim_C3_locked_axis_frozen (axisInfo : List AxisEntry)
    (linkAgg : List (String × LinkDatum)) (lockAxisName missingLabel : String)
    (iterations : JSNum) (j : Nat)
    (hj : axisInfo.findIdx? (fun a => a.axis = lockAxisName) = some j) :
    (reduceCrossings axisInfo linkAgg lockAxisName missingLabel iterations)[j]?
      = axisInfo[j]? := by
  unfold reduceCrossings reorderBarycentricAxisInfo
  split
  · rfl
  · simp only [hj]
    exact iterate_get_locked _ _ _ _ _ _

/-- Witness for claim C3 at a concrete three-axis configuration locked on
its first axis. -/
theorem claim_C3_witness :
    exState3.findIdx? (fun a => a.axis = "L") = some 0 ∧
    (reduceCrossings exState3 exLinks "L" "Missing" (.finite 6))[0]? = exState3[0]? :=
  ⟨by decide,
   claim_C3_locked_axis_frozen exState3 exLinks "L" "Missing" (.finite 6) 0 (by decide)⟩

/-! ### Sentinel-last invariant (claim C2) -/

/-- An axis entry keeps the sentinel last: if the sentinel label has a
nonzero occurrence count on this axis, it is the last element of the
axis's ordered category list. -/
def sentinelLast (missingLabel : String) (e : AxisEntry) : Prop :=
  0 < (jget e.totalsByCategory missingLabel).getD 0 →
    e.categories.getLast? = some missingLabel

instance (missingLabel : String) (e : AxisEntry) : Decidable (sentinelLast missingLabel e) := by
  unfold sentinelLast
  infer_instance

theorem splitMissing_snd (missingLabel : String) (hm : missingLabel ≠ "")
    (cats : List String) (tot : List (String × Nat)) :
    (splitMissing missingLabel cats tot).2 = decide (0 < (jget tot missingLabel).getD 0) := by
  unfold splitMissing
  simp [hm]

theorem sentinelLast_applyReorder (missingLabel : String) (hm : missingLabel ≠ "")
    (st : List AxisEntry) (i : Nat) (scores : List (String × ℚ))
    (hst : ∀ e ∈ st, sentinelLast missingLabel e) :
    ∀ e ∈ applyReorder missingLabel st i scores, sentinelLast missingLabel e := by
  intro e he
  unfold applyReorder at he
  rcases List.mem_or_eq_of_mem_set he with h | h
  · exact hst e h
  · subst h
    intro hcount
    simp only at hcount ⊢
    rw [splitMissing_snd missingLabel hm] at *
    rw [if_pos (by simpa using hcount)]
    exact List.getLast?_concat _

theorem sentinelLast_fwdStep (missingLabel : String) (hm : missingLabel ≠ "")
    (pls : PairLinks) (lockPos : Option Nat) (st : List AxisEntry) (i : Nat)
    (hst : ∀ e ∈ st, sentinelLast missingLabel e) :
    ∀ e ∈ fwdStep missingLabel pls lockPos st i, sentinelLast missingLabel e := by
  unfold fwdStep
  split
  · exact hst
  · exact sentinelLast_applyReorder missingLabel hm st i _ hst

theorem sentinelLast_bwdStep (missingLabel : String) (hm : missingLabel ≠ "")
    (pls : PairLinks) (lockPos : Option Nat) (st : List AxisEntry) (i : Nat)
    (hst : ∀ e ∈ st, sentinelLast missingLabel e) :
    ∀ e ∈ bwdStep missingLabel pls lockPos st i, sentinelLast missingLabel e := by
  unfold bwdStep
  split
  · exact hst
  · exact sentinelLast_applyReorder missingLabel hm st i _ hst

theorem sentinelLast_foldl_fwd (missingLabel : String) (hm : missingLabel ≠ "")
    (pls : PairLinks) (lockPos : Option Nat) (is : List Nat) :
    ∀ st : List AxisEntry, (∀ e ∈ st, sentinelLast missingLabel e) →
    ∀ e ∈ is.foldl (fwdStep missingLabel pls lockPos) st, sentinelLast missingLabel e := by
  induction is with
  | nil => intro st hst; exact hst
  | cons a as ih =>
    intro st hst
    rw [List.foldl_cons]
    exact ih _ (sentinelLast_fwdStep missingLabel hm pls lockPos st a hst)

theorem sentinelLast_foldl_bwd (missingLabel : String) (hm : missingLabel ≠ "")
    (pls : PairLinks) (lockPos : Option Nat) (is : List Nat) :
    ∀ st : List AxisEntry, (∀ e ∈ st, sentinelLast missingLabel e) →
    ∀ e ∈ is.foldl (bwdStep missingLabel pls lockPos) st, sentinelLast missingLabel e := by
  induction is with
  | nil => intro st hst; exact hst
  | cons a as ih =>
    intro st hst
    rw [List.foldl_cons]
    exact ih _ (sentinelLast_bwdStep missingLabel hm pls lockPos st a hst)

theorem sentinelLast_oneIteration (missingLabel : String) (hm : missingLabel ≠ "")
    (pls : PairLinks) (lockPos : Option Nat) (n : Nat) (st : List AxisEntry)
    (hst : ∀ e ∈ st, sentinelLast missingLabel e) :
    ∀ e ∈ oneIteration missingLabel pls lockPos n st, sentinelLast missingLabel e := by
  unfold oneIteration
  exact sentinelLast_foldl_bwd missingLabel hm pls lockPos _ _
    (sentinelLast_foldl_fwd missingLabel hm pls lockPos _ _ hst)

theorem sentinelLast_iterate (missingLabel : String) (hm : missingLabel ≠ "")
    (pls : PairLinks) (lockPos : Option Nat) (n k : Nat) :
    ∀ st : List AxisEntry, (∀ e ∈ st, sentinelLast missingLabel e) →
    ∀ e ∈ (oneIteration missingLabel pls lockPos n)^[k] st, sentinelLast missingLabel e := by
  induction k with
  | zero => intro st hst; exact hst
  | succ k ih =>
    intro st hst
    rw [Function.iterate_succ_apply]
    exact ih _ (sentinelLast_oneIteration missingLabel hm pls lockPos n st hst)

/-- Claim C2: with a nonempty sentinel label, (a) after every individual
sweep reorder of any axis, every axis entry on which the sentinel has
nonzero occurrence count has the sentinel as the last element of its
category list (provided the other, untouched entries already satisfied
this); and (b) the same invariant holds after the full `reduceCrossings`
run whenever the input satisfied it. -/
theorem claim_C2_sentinel_last (missingLabel : String) (hm : missingLabel ≠ "") :
    (∀ (st : List AxisEntry) (i : Nat) (scores : List (String × ℚ)),
      (∀ e ∈ st, sentinelLast missingLabel e) →
      ∀ e ∈ applyReorder missingLabel st i scores, sentinelLast missingLabel e)
    ∧ (∀ (axisInfo : List AxisEntry) (linkAgg : List (String × LinkDatum))
        (lockAxisName : String) (iterations : JSNum),
        (∀ e ∈ axisInfo, sentinelLast missingLabel e) →
        ∀ e ∈ reduceCrossings axisInfo linkAgg lockAxisName missingLabel iterations,
          sentinelLast missingLabel e) := by
  constructor
  · intro st i scores hst
    exact sentinelLast_applyReorder missingLabel hm st i scores hst
  · intro axisInfo linkAgg lockAxisName iterations hst
    unfold reduceCrossings reorderBarycentricAxisInfo
    split
    · exact hst
    · exact sentinelLast_iterate missingLabel hm _ _ _ _ axisInfo hst

/-- Witness for claim C2 with the concrete sentinel label. -/
theorem claim_C2_witness :
    ("Missing" : String) ≠ "" ∧
    ((∀ (st : List AxisEntry) (i : Nat) (scores : List (String × ℚ)),
      (∀ e ∈ st, sentinelLast "Missing" e) →
      ∀ e ∈ applyReorder "Missing" st i scores, sentinelLast "Missing" e)
    ∧ (∀ (axisInfo : List AxisEntry) (linkAgg : List (String × LinkDatum))
        (lockAxisName : String) (iterations : JSNum),
        (∀ e ∈ axisInfo, sentinelLast "Missing" e) →
        ∀ e ∈ reduceCrossings axisInfo linkAgg lockAxisName "Missing" iterations,
          sentinelLast "Missing" e)) :=
  ⟨by decide, claim_C2_sentinel_last "Missing" (by decide)⟩

/-! ### Discarded links (claim C7) -/

theorem bplStep_skip (axisPos : List (String × Nat)) (pls : PairLinks) (d : LinkDatum)
    (h : ∀ p0 p1, jget axisPos (splitNodeId d.source).1 = some p0 →
                  jget axisPos (splitNodeId d.target).1 = some p1 → p1 ≠ p0 + 1) :
    bplStep axisPos pls d = pls := by
  unfold bplStep
  split
  · next p0 p1 h0 h1 => exact if_neg (h p0 p1 h0 h1)
  · rfl

theorem jkeys_foldl_jset_subset {K V : Type} [DecidableEq K] (l : List (K × V)) :
    ∀ m : List (K × V),
    jkeys (l.foldl (fun m p => jset m p.1 p.2) m) ⊆ jkeys m ++ l.map (·.1) := by
  induction l with
  | nil => intro m; simp
  | cons p l ih =>
    intro m
    rw [List.foldl_cons]
    intro x hx
    have hsub := ih (jset m p.1 p.2) hx
    rw [jkeys_jset] at hsub
    rw [List.map_cons]
    by_cases hmem : p.1 ∈ jkeys m
    · rw [if_pos hmem] at hsub
      rcases List.mem_append.mp hsub with h2 | h2
      · exact List.mem_append.mpr (Or.inl h2)
      · exact List.mem_append.mpr (Or.inr (List.mem_cons_of_mem _ h2))
    · rw [if_neg hmem] at hsub
      rcases List.mem_append.mp hsub with h2 | h2
      · rcases List.mem_append.mp h2 with h3 | h3
        · exact List.mem_append.mpr (Or.inl h3)
        · have hx1 : x = p.1 := List.mem_singleton.mp h3
          subst hx1
          exact List.mem_append.mpr (Or.inr (List.mem_cons_self _ _))
      · exact List.mem_append.mpr (Or.inr (List.mem_cons_of_mem _ h2))

theorem axisPosByName_keys_subset (axisInfo : List AxisEntry) :
    jkeys (axisPosByName axisInfo) ⊆ axisInfo.map (·.axis) := by
  intro x hx
  unfold axisPosByName jofList at hx
  have h := jkeys_foldl_jset_subset (axisInfo.enum.map (fun p => (p.2.axis, p.1))) [] hx
  rw [show jkeys ([] : List (String × Nat)) = [] from rfl, List.nil_append] at h
  rw [List.map_map] at h
  have heq : ((fun x : String × Nat => x.1) ∘ (fun p : Nat × AxisEntry => (p.2.axis, p.1)))
      = ((fun a : AxisEntry => a.axis) ∘ Prod.snd) := rfl
  rw [heq, ← List.map_map, List.enum_map_snd] at h
  exact h

/-- Claim C7: when building adjacency weights, a link whose source or
target axis name resolves to no known axis position, or whose resolved
positions are not exactly adjacent (target position = source position+1),
is silently discarded: deleting such a link entry anywhere in the link
aggregate leaves `buildPairLinks` unchanged (and no error is possible,
the function being total); moreover an axis name that does not appear in
the axis list resolves to no position. -/
theorem claim_C7_nonadjacent_links_discarded (axisInfo : List AxisEntry)
    (xs ys : List (String × LinkDatum)) (k : String) (d : LinkDatum)
    (h : ∀ p0 p1, jget (axisPosByName axisInfo) (splitNodeId d.source).1 = some p0 →
                  jget (axisPosByName axisInfo) (splitNodeId d.target).1 = some p1 →
                  p1 ≠ p0 + 1) :
    buildPairLinks axisInfo (xs ++ (k, d) :: ys) = buildPairLinks axisInfo (xs ++ ys)
    ∧ (∀ name, name ∉ axisInfo.map (·.axis) →
        jget (axisPosByName axisInfo) name = none) := by
  constructor
  · unfold buildPairLinks
    rw [List.map_append, List.map_append, List.map_cons,
      List.foldl_append, List.foldl_append, List.foldl_cons, bplStep_skip _ _ _ h]
  · intro name hn
    rw [jget_eq_none_iff]
    exact fun hmem => hn (axisPosByName_keys_subset axisInfo hmem)

/-- Witness for claim C7: a self-link on the first axis (non-adjacent
positions 0 and 0) is discarded. -/
theorem claim_C7_witness :
    (∀ p0 p1,
      jget (axisPosByName exState3) (splitNodeId "L::A").1 = some p0 →
      jget (axisPosByName exState3) (splitNodeId "L::B").1 = some p1 →
      p1 ≠ p0 + 1) ∧
    (buildPairLinks exState3 (exLinks ++ ("bad", ⟨"L::A", "L::B", 7, []⟩) :: [])
        = buildPairLinks exState3 (exLinks ++ [])
      ∧ (∀ name, name ∉ exState3.map (·.axis) →
          jget (axisPosByName exState3) name = none)) :=
  ⟨fun p0 p1 h0 h1 => by
      simp only [show jget (axisPosByName exState3) (splitNodeId "L::A").1 = some 0 from rfl] at h0
      simp only [show jget (axisPosByName exState3) (splitNodeId "L::B").1 = some 0 from rfl] at h1
      cases h0; cases h1; omega,
   claim_C7_nonadjacent_links_discarded exState3 exLinks [] "bad" ⟨"L::A", "L::B", 7, []⟩
     (fun p0 p1 h0 h1 => by
      simp only [show jget (axisPosByName exState3) (splitNodeId "L::A").1 = some 0 from rfl] at h0
      simp only [show jget (axisPosByName exState3) (splitNodeId "L::B").1 = some 0 from rfl] at h1
      cases h0; cases h1; omega)⟩

/-! ### Aggregator (src/viz/preprocess.js, `preprocess` steps 1-3) -/

/-- The node id `axis::label` (src/viz/preprocess.js lines 5-7). -/
def nodeId (axis label : String) : String := axis ++ "::" ++ label

/-- A row: mapping from axis name (CSV column) to raw field value. -/
abbrev Row := List (String × String)

/-- Step 1 of `preprocess`: per-axis/label occurrence totals, a JS map
keyed by node id and filled row by row, axis by axis. -/
def totalsOf (rows : List Row) (axes : List String) : List (String × Nat) :=
  rows.foldl (fun t r =>
    axes.foldl (fun t axis =>
      let id := nodeId axis (normLabel axis (jget r axis))
      jset t id ((jget t id).getD 0 + 1)) t) []

/-- The destructuring `const [a, label] = id.split("::")`: the first two
segments of the JS split (JS yields `undefined`, modelled `""`, when a
segment is absent). -/
def splitIdFirstTwo (id : String) : String × String :=
  let parts := id.splitOn "::"
  (parts.getD 0 "", parts.getD 1 "")

/-- The per-axis `totalsByCategory` map: totals entries belonging to this
axis, keyed by label. -/
def totalsByCategoryOf (totals : List (String × Nat)) (axis : String) :
    List (String × Nat) :=
  totals.foldl (fun m p =>
    let al := splitIdFirstTwo p.1
    if al.1 ≠ axis then m else jset m al.2 p.2) []

/-- The canonical cluster sequence `SEQ_DC` (src/viz/preprocess.js
line 86). -/
def SEQ_DC : List String := ["DC1", "DC2", "DC3", "DC4", "DC5", "DC6"]

/-- The JS comparator sorting extra cluster labels: numerically when both
match `/^DC(\d+)$/i`, else DC-like first, else `localeCompare` (modelled
as code-point string comparison). -/
def extrasCmp (a b : String) : Int :=
  match reMatchCI "DC" a, reMatchCI "DC" b with
  | some na, some nb => (na : Int) - nb
  | some _, none => -1
  | none, some _ => 1
  | none, none => if a < b then -1 else if b < a then 1 else 0

/-- Boolean order for the extras sort. -/
def extrasLe (a b : String) : Bool := decide (extrasCmp a b ≤ 0)

/-- Boolean order for the frequency sort `(a, b) => b[1] - a[1]` of the
non-cluster axes (descending occurrence count, stable on ties). -/
def byCountDescLe (u v : String × Nat) : Bool := decide ((v.2 : Int) - u.2 ≤ 0)

/-- Step 2 of `preprocess` for one axis: the initial category ordering
(canonical DC sequence plus sorted extras for the cluster axis, frequency
descending for the rest, sentinel appended last when present). -/
def initialAxisEntry (totals : List (String × Nat)) (axis : String) (index : Nat) :
    AxisEntry :=
  let totalsByCategory := totalsByCategoryOf totals axis
  let missingCount := (jget totalsByCategory MISSING_LABEL).getD 0
  let cats0 :=
    if axis = "Design-Concept" then
      let seq := SEQ_DC.filter (fun dc => (jget totalsByCategory dc).isSome)
      let extras := (jkeys totalsByCategory).filter
          (fun l => decide (l ∉ SEQ_DC ∧ l ≠ MISSING_LABEL))
      seq ++ extras.mergeSort extrasLe
    else
      ((totalsByCategory.filter (fun p => p.1 ≠ MISSING_LABEL)).mergeSort
        byCountDescLe).map (·.1)
  let cats1 :=
    if 0 < missingCount ∧ ¬ cats0.contains MISSING_LABEL then cats0 ++ [MISSING_LABEL]
    else cats0
  { axis := axis, index := index, categories := cats1, totalsByCategory := totalsByCategory }

/-- Step 2 of `preprocess`: the initial `axisInfo` array. -/
def axisInfoOf (rows : List Row) (axes : List String) : List AxisEntry :=
  let totals := totalsOf rows axes
  axes.enum.map (fun p => initialAxisEntry totals p.2 p.1)

/-- Step 3 of `preprocess` for one row: aggregate its adjacent-axis links
into the `linkAgg` map; `colorCol` is `RENDER.colorBy` (config.js sets
"Design-Concept"). -/
def linkAggStep (axes : List String) (colorCol : String)
    (agg : List (String × LinkDatum)) (r : Row) : List (String × LinkDatum) :=
  let ck0 := jsTrim ((jget r colorCol).getD "")
  let ck1 := if colorCol = "Design-Concept" then normConceptCluster ck0 else ck0
  let clusterKey := if ck1 = "" then MISSING_LABEL else ck1
  (List.range (axes.length - 1)).foldl (fun agg i =>
    let a0 := axes.getD i ""
    let a1 := axes.getD (i + 1) ""
    let s := nodeId a0 (normLabel a0 (jget r a0))
    let t := nodeId a1 (normLabel a1 (jget r a1))
    let k := s ++ "-->" ++ t
    let old := (jget agg k).getD { source := s, target := t, value := 0, byCluster := [] }
    jset agg k { old with
      value := old.value + 1,
      byCluster := jset old.byCluster clusterKey
        ((jget old.byCluster clusterKey).getD 0 + 1) }) agg

/-- Step 3 of `preprocess`: the aggregated adjacent-axis links. -/
def linkAggOf (rows : List Row) (axes : List String) (colorCol : String) :
    List (String × LinkDatum) :=
  rows.foldl (linkAggStep axes colorCol) []

/-- Claim C9: aggregation is a deterministic pure function of the rows
and axis list: two runs on equal inputs produce identical totals,
identical initial per-axis category orderings, and identical adjacency
weights. -/
theorem claim_C9_aggregation_deterministic (rows rows2 : List Row)
    (axes axes2 : List String) (colorCol : String)
    (hr : rows = rows2) (ha : axes = axes2) :
    totalsOf rows axes = totalsOf rows2 axes2
    ∧ axisInfoOf rows axes = axisInfoOf rows2 axes2
    ∧ linkAggOf rows axes colorCol = linkAggOf rows2 axes2 colorCol := by
  subst hr
  subst ha
  exact ⟨rfl, rfl, rfl⟩

/-- The spec's scenario rows: two C0 rows and one DC2 row. -/
def exRows : List Row :=
  [[("Design-Concept", "C0"), ("Sensory Modality", "Sight")],
   [("Design-Concept", "C0"), ("Sensory Modality", "Sound")],
   [("Design-Concept", "DC2"), ("Sensory Modality", "Sight")]]

/-- The axes of the scenario. -/
def exAxes : List String := ["Design-Concept", "Sensory Modality"]

/-- Witness for claim C9 at the spec's concrete scenario. -/
theorem claim_C9_witness :
    (exRows = exRows ∧ exAxes = exAxes) ∧
    (totalsOf exRows exAxes = totalsOf exRows exAxes
     ∧ axisInfoOf exRows exAxes = axisInfoOf exRows exAxes
     ∧ linkAggOf exRows exAxes "Design-Concept" = linkAggOf exRows exAxes "Design-Concept") :=
  ⟨⟨rfl, rfl⟩,
   claim_C9_aggregation_deterministic exRows exRows exAxes exAxes "Design-Concept" rfl rfl⟩

/-! ### Position map characterization (for claim C1) -/

theorem mkPosGo_get_not_mem : ∀ (cs : List String) (m : List (String × Nat)) (i : Nat)
    (u : String), u ∉ cs → jget (mkPosGo m i cs) u = jget m u := by
  intro cs
  induction cs with
  | nil => intro m i u _; rfl
  | cons c cs ih =>
    intro m i u hu
    have huc : u ≠ c := fun h => hu (h ▸ List.mem_cons_self c cs)
    have hucs : u ∉ cs := fun h => hu (List.mem_cons_of_mem c h)
    show jget (mkPosGo (jset m c i) (i + 1) cs) u = jget m u
    rw [ih _ _ _ hucs, jget_jset, if_neg huc]

theorem mkPosGo_get_of_nodup : ∀ (cs : List String) (m : List (String × Nat)) (i : Nat),
    cs.Nodup → ∀ (n : Nat) (u : String), cs[n]? = some u →
    jget (mkPosGo m i cs) u = some (i + n) := by
  intro cs
  induction cs with
  | nil => intro m i _ n u h; simp at h
  | cons c cs ih =>
    intro m i hnd n u h
    have hhead : c ∉ cs := (List.nodup_cons.mp hnd).1
    have htail : cs.Nodup := (List.nodup_cons.mp hnd).2
    cases n with
    | zero =>
      simp only [List.getElem?_cons_zero, Option.some.injEq] at h
      subst h
      show jget (mkPosGo (jset m c i) (i + 1) cs) c = some (i + 0)
      rw [mkPosGo_get_not_mem cs _ _ c hhead, jget_jset, if_pos rfl]
      rfl
    | succ n =>
      simp only [List.getElem?_cons_succ] at h
      show jget (mkPosGo (jset m c i) (i + 1) cs) u = some (i + (n + 1))
      rw [ih _ _ htail n u h]
      congr 1
      omega

theorem mkPos_get {cats : List String} (h : cats.Nodup) {n : Nat} {u : String}
    (hn : cats[n]? = some u) : jget (mkPos cats) u = some n := by
  have := mkPosGo_get_of_nodup cats [] 0 h n u hn
  rwa [Nat.zero_add] at this

theorem mkPos_get_not_mem {cats : List String} {u : String} (hu : u ∉ cats) :
    jget (mkPos cats) u = none :=
  mkPosGo_get_not_mem cats [] 0 u hu

theorem mkPos_getD_inj {cats : List String} (h : cats.Nodup) {u v : String}
    (hu : u ∈ cats) (hv : v ∈ cats)
    (he : (jget (mkPos cats) u).getD 0 = (jget (mkPos cats) v).getD 0) : u = v := by
  obtain ⟨nu, hnu⟩ := List.mem_iff_getElem?.mp hu
  obtain ⟨nv, hnv⟩ := List.mem_iff_getElem?.mp hv
  rw [mkPos_get h hnu, mkPos_get h hnv] at he
  simp only [Option.getD_some] at he
  subst he
  rw [hnu] at hnv
  exact (Option.some.injEq _ _).mp hnv

theorem mkPos_pairwise_lt {cats : List String} (h : cats.Nodup) :
    cats.Pairwise (fun u v => (jget (mkPos cats) u).getD 0 < (jget (mkPos cats) v).getD 0) := by
  rw [List.pairwise_iff_getElem]
  intro i j hi hj hij
  have hgi : jget (mkPos cats) cats[i] = some i := mkPos_get h (List.getElem?_eq_getElem hi)
  have hgj : jget (mkPos cats) cats[j] = some j := mkPos_get h (List.getElem?_eq_getElem hj)
  rw [hgi, hgj]
  simpa using hij

/-! ### The comparator as a lexicographic order (for claim C1) -/

/-- The sort key determined by the comparator: scored-flag (0 for scored,
1 for unscored), score value, prior position. -/
def scoreKey (scores : List (String × ℚ)) (cpos : List (String × Nat)) (u : String) :
    ℚ × ℚ × ℚ :=
  (if (jget scores u).isSome then 0 else 1,
   (jget scores u).getD 0,
   ((jget cpos u).getD 0 : ℚ))

/-- Lexicographic order on triples of rationals. -/
def lexLe3 (a b : ℚ × ℚ × ℚ) : Prop :=
  a.1 < b.1 ∨ (a.1 = b.1 ∧ (a.2.1 < b.2.1 ∨ (a.2.1 = b.2.1 ∧ a.2.2 ≤ b.2.2)))

theorem lexLe3_trans {a b c : ℚ × ℚ × ℚ} (h1 : lexLe3 a b) (h2 : lexLe3 b c) :
    lexLe3 a c := by
  unfold lexLe3 at *
  rcases h1 with h1 | ⟨e1, h1⟩
  · rcases h2 with h2 | ⟨e2, h2⟩
    · exact Or.inl (h1.trans h2)
    · exact Or.inl (e2 ▸ h1)
  · rcases h2 with h2 | ⟨e2, h2⟩
    · exact Or.inl (e1 ▸ h2)
    · refine Or.inr ⟨e1.trans e2, ?_⟩
      rcases h1 with h1 | ⟨f1, h1⟩
      · rcases h2 with h2 | ⟨f2, h2⟩
        · exact Or.inl (h1.trans h2)
        · exact Or.inl (f2 ▸ h1)
      · rcases h2 with h2 | ⟨f2, h2⟩
        · exact Or.inl (f1 ▸ h2)
        · exact Or.inr ⟨f1.trans f2, h1.trans h2⟩

theorem lexLe3_total (a b : ℚ × ℚ × ℚ) : lexLe3 a b ∨ lexLe3 b a := by
  unfold lexLe3
  rcases lt_trichotomy a.1 b.1 with h | h | h
  · exact Or.inl (Or.inl h)
  · rcases lt_trichotomy a.2.1 b.2.1 with h2 | h2 | h2
    · exact Or.inl (Or.inr ⟨h, Or.inl h2⟩)
    · rcases le_total a.2.2 b.2.2 with h3 | h3
      · exact Or.inl (Or.inr ⟨h, Or.inr ⟨h2, h3⟩⟩)
      · exact Or.inr (Or.inr ⟨h.symm, Or.inr ⟨h2.symm, h3⟩⟩)
    · exact Or.inr (Or.inr ⟨h.symm, Or.inl h2⟩)
  · exact Or.inr (Or.inl h)

theorem lexLe3_antisymm {a b : ℚ × ℚ × ℚ} (h1 : lexLe3 a b) (h2 : lexLe3 b a) :
    a = b := by
  obtain ⟨a1, a2, a3⟩ := a
  obtain ⟨b1, b2, b3⟩ := b
  unfold lexLe3 at h1 h2
  simp only at h1 h2
  rcases h1 with h1 | ⟨e1, h1⟩
  · rcases h2 with h2 | ⟨e2, h2⟩
    · exact absurd (h1.trans h2) (lt_irrefl a1)
    · exact absurd (e2 ▸ h1) (lt_irrefl a1)
  · rcases h2 with h2 | ⟨e2, h2⟩
    · exact absurd (e1 ▸ h2) (lt_irrefl b1)
    · subst e1
      rcases h1 with h1 | ⟨f1, h1⟩
      · rcases h2 with h2 | ⟨f2, h2⟩
        · exact absurd (h1.trans h2) (lt_irrefl a2)
        · exact absurd (f2 ▸ h1) (lt_irrefl a2)
      · rcases h2 with h2 | ⟨f2, h2⟩
        · exact absurd (f1 ▸ h2) (lt_irrefl b2)
        · subst f1
          rw [le_antisymm h1 h2]

theorem catLe_iff_lexLe3 (scores : List (String × ℚ)) (cpos : List (String × Nat))
    (u v : String) :
    catLe scores cpos u v = true ↔ lexLe3 (scoreKey scores cpos u) (scoreKey scores cpos v) := by
  unfold catLe jsCmp scoreKey lexLe3
  rw [decide_eq_true_eq]
  rcases hu : jget scores u with _ | su <;> rcases hv : jget scores v with _ | sv
  · simp [sub_nonpos]
  · simp only [Option.isSome_none, Option.isSome_some, Option.getD_none, Option.getD_some]
    norm_num
  · simp only [Option.isSome_none, Option.isSome_some, Option.getD_none, Option.getD_some]
    norm_num
  · simp only [Option.isSome_some, Option.getD_some]
    by_cases he : su = sv
    · subst he
      simp [sub_nonpos]
    · rw [if_pos he]
      constructor
      · intro h
        have hle : su ≤ sv := sub_nonpos.mp h
        refine Or.inr ⟨by trivial, Or.inl (lt_of_le_of_ne hle he)⟩
      · intro h
        rcases h with h | ⟨-, h | ⟨e, -⟩⟩
        · exact absurd h (lt_irrefl _)
        · exact sub_nonpos.mpr (le_of_lt h)
        · exact absurd e he

/-- Two permuted lists, both sorted under a relation antisymmetric on the
members of the first, are equal (a local version of
`eq_of_perm_of_sorted` without a global antisymmetry instance). -/
theorem perm_pairwise_eq {α : Type} {r : α → α → Prop} :
    ∀ {l₁ l₂ : List α}, l₁.Perm l₂ → l₁.Pairwise r → l₂.Pairwise r →
    (∀ a b, a ∈ l₁ → b ∈ l₁ → r a b → r b a → a = b) → l₁ = l₂ := by
  intro l₁
  induction l₁ with
  | nil =>
    intro l₂ hp _ _ _
    exact hp.nil_eq
  | cons a t ih =>
    intro l₂ hp hs₁ hs₂ hanti
    have ha2 : a ∈ l₂ := hp.subset (List.mem_cons_self a t)
    cases l₂ with
    | nil => simp at ha2
    | cons b t₂ =>
      by_cases hab : a = b
      · subst hab
        have hp' : t.Perm t₂ := hp.cons_inv
        have ht := ih hp' (List.Pairwise.of_cons hs₁) (List.Pairwise.of_cons hs₂)
          (fun x y hx hy => hanti x y (List.mem_cons_of_mem _ hx) (List.mem_cons_of_mem _ hy))
        rw [ht]
      · have ha2' : a ∈ t₂ := (List.mem_cons.mp ha2).resolve_left hab
        have hb1 : b ∈ a :: t := hp.symm.subset (List.mem_cons_self b t₂)
        have hb1' : b ∈ t := (List.mem_cons.mp hb1).resolve_left (fun h => hab h.symm)
        have hrab : r a b := (List.pairwise_cons.mp hs₁).1 b hb1'
        have hrba : r b a := (List.pairwise_cons.mp hs₂).1 a ha2'
        exact absurd
          (hanti a b (List.mem_cons_self a t) (List.mem_cons_of_mem _ hb1') hrab hrba) hab

/-! ### Spec-side reordering (for claim C1) -/

/-- Spec-side order on scored categories: score ascending, ties broken by
prior position. -/
def specScoreLe (scores : List (String × ℚ)) (cpos : List (String × Nat)) (u v : String) :
    Bool :=
  decide ((jget scores u).getD 0 < (jget scores v).getD 0
    ∨ ((jget scores u).getD 0 = (jget scores v).getD 0
        ∧ (jget cpos u).getD 0 ≤ (jget cpos v).getD 0))

/-- Spec-side reordering of the non-sentinel categories: the scored ones
sorted by score ascending (ties by prior order, stable), followed by the
unscored ones in their prior relative order. -/
def specResort (scores : List (String × ℚ)) (cpos : List (String × Nat))
    (base : List String) : List String :=
  (base.filter (fun l => (jget scores l).isSome)).mergeSort (specScoreLe scores cpos)
    ++ base.filter (fun l => (jget scores l).isNone)

theorem catLe_trans (scores : List (String × ℚ)) (cpos : List (String × Nat)) :
    ∀ a b c : String, catLe scores cpos a b → catLe scores cpos b c →
      catLe scores cpos a c := by
  intro a b c h1 h2
  rw [catLe_iff_lexLe3] at h1 h2 ⊢
  exact lexLe3_trans h1 h2

theorem catLe_total (scores : List (String × ℚ)) (cpos : List (String × Nat)) :
    ∀ a b : String, catLe scores cpos a b || catLe scores cpos b a := by
  intro a b
  simp only [Bool.or_eq_true, catLe_iff_lexLe3]
  exact lexLe3_total _ _

theorem specScoreLe_trans (scores : List (String × ℚ)) (cpos : List (String × Nat)) :
    ∀ a b c : String, specScoreLe scores cpos a b → specScoreLe scores cpos b c →
      specScoreLe scores cpos a c := by
  intro a b c h1 h2
  unfold specScoreLe at h1 h2 ⊢
  rw [decide_eq_true_eq] at h1 h2 ⊢
  rcases h1 with h1 | ⟨e1, h1⟩ <;> rcases h2 with h2 | ⟨e2, h2⟩
  · exact Or.inl (h1.trans h2)
  · exact Or.inl (e2 ▸ h1)
  · exact Or.inl (e1 ▸ h2)
  · exact Or.inr ⟨e1.trans e2, h1.trans h2⟩

theorem specScoreLe_total (scores : List (String × ℚ)) (cpos : List (String × Nat)) :
    ∀ a b : String, specScoreLe scores cpos a b || specScoreLe scores cpos b a := by
  intro a b
  simp only [Bool.or_eq_true]
  unfold specScoreLe
  rw [decide_eq_true_eq, decide_eq_true_eq]
  rcases lt_trichotomy ((jget scores a).getD 0) ((jget scores b).getD 0) with h | h | h
  · exact Or.inl (Or.inl h)
  · rcases le_total ((jget cpos a).getD 0) ((jget cpos b).getD 0) with h2 | h2
    · exact Or.inl (Or.inr ⟨h, h2⟩)
    · exact Or.inr (Or.inr ⟨h.symm, h2⟩)
  · exact Or.inr (Or.inl h)

theorem catLe_eq_specScoreLe_of_isSome (scores : List (String × ℚ))
    (cpos : List (String × Nat)) (u v : String)
    (hu : (jget scores u).isSome) (hv : (jget scores v).isSome) :
    (catLe scores cpos u v = true) ↔ (specScoreLe scores cpos u v = true) := by
  obtain ⟨su, hsu⟩ := Option.isSome_iff_exists.mp hu
  obtain ⟨sv, hsv⟩ := Option.isSome_iff_exists.mp hv
  unfold catLe specScoreLe
  rw [decide_eq_true_eq, decide_eq_true_eq]
  unfold jsCmp
  rw [hsu, hsv]
  simp only [Option.getD_some]
  by_cases he : su = sv
  · subst he
    simp only [if_neg (by intro h; exact h rfl : ¬ su ≠ su)]
    rw [sub_nonpos]
    constructor
    · intro h
      exact Or.inr ⟨by trivial, by exact_mod_cast h⟩
    · rintro (h | ⟨-, h⟩)
      · exact absurd h (lt_irrefl _)
      · exact_mod_cast h
  · rw [if_pos he, sub_nonpos]
    constructor
    · intro h
      exact Or.inl (lt_of_le_of_ne h he)
    · rintro (h | ⟨e, -⟩)
      · exact le_of_lt h
      · exact absurd e he

/-- The code's stable sort with the JS comparator equals the spec-side
two-phase reordering, whenever the prior positions are injective and
strictly increasing along the list being sorted (which holds for a
duplicate-free category list and its own position map). -/
theorem mergeSort_catLe_eq_specResort (scores : List (String × ℚ))
    (cpos : List (String × Nat)) (base : List String)
    (hinj : ∀ u v, u ∈ base → v ∈ base →
      (jget cpos u).getD 0 = (jget cpos v).getD 0 → u = v)
    (hmono : base.Pairwise (fun u v => (jget cpos u).getD 0 < (jget cpos v).getD 0)) :
    base.mergeSort (catLe scores cpos) = specResort scores cpos base := by
  have hco : base.filter (fun l => !(jget scores l).isSome)
      = base.filter (fun l => (jget scores l).isNone) :=
    List.filter_congr (fun x _ => by cases jget scores x <;> rfl)
  have hsplit : (base.filter (fun l => (jget scores l).isSome)
      ++ base.filter (fun l => (jget scores l).isNone)).Perm base := by
    have h := List.filter_append_perm (fun l => (jget scores l).isSome) base
    rwa [hco] at h
  have hperm2 : (specResort scores cpos base).Perm base := by
    unfold specResort
    exact (((List.mergeSort_perm _ _)).append (List.Perm.refl _)).trans hsplit
  have hperm : (base.mergeSort (catLe scores cpos)).Perm (specResort scores cpos base) :=
    (List.mergeSort_perm base _).trans hperm2.symm
  have hs1 : (base.mergeSort (catLe scores cpos)).Pairwise
      (fun u v => catLe scores cpos u v = true) :=
    List.sorted_mergeSort (catLe_trans scores cpos) (catLe_total scores cpos) base
  have hs2 : (specResort scores cpos base).Pairwise
      (fun u v => catLe scores cpos u v = true) := by
    unfold specResort
    rw [List.pairwise_append]
    refine ⟨?_, ?_, ?_⟩
    · have hsorted : ((base.filter (fun l => (jget scores l).isSome)).mergeSort
          (specScoreLe scores cpos)).Pairwise
            (fun u v => specScoreLe scores cpos u v = true) :=
        List.sorted_mergeSort (specScoreLe_trans scores cpos)
          (specScoreLe_total scores cpos) _
      refine hsorted.imp_of_mem ?_
      intro a b ha hb hab
      have ha2 : (jget scores a).isSome :=
        (List.mem_filter.mp (List.mem_mergeSort.mp ha)).2
      have hb2 : (jget scores b).isSome :=
        (List.mem_filter.mp (List.mem_mergeSort.mp hb)).2
      exact (catLe_eq_specScoreLe_of_isSome scores cpos a b ha2 hb2).mpr hab
    · have hm : (base.filter (fun l => (jget scores l).isNone)).Pairwise
          (fun u v => (jget cpos u).getD 0 < (jget cpos v).getD 0) :=
        List.Pairwise.sublist (List.filter_sublist base) hmono
      refine hm.imp_of_mem ?_
      intro a b ha hb hlt
      have hna : jget scores a = none :=
        Option.isNone_iff_eq_none.mp (List.mem_filter.mp ha).2
      have hnb : jget scores b = none :=
        Option.isNone_iff_eq_none.mp (List.mem_filter.mp hb).2
      unfold catLe
      rw [decide_eq_true_eq]
      unfold jsCmp
      rw [hna, hnb]
      show ((jget cpos a).getD 0 : ℚ) - ((jget cpos b).getD 0 : ℚ) ≤ 0
      rw [sub_nonpos]
      exact_mod_cast le_of_lt hlt
    · intro a ha b hb
      have ha2 : (jget scores a).isSome :=
        (List.mem_filter.mp (List.mem_mergeSort.mp ha)).2
      obtain ⟨sa, hsa⟩ := Option.isSome_iff_exists.mp ha2
      have hnb : jget scores b = none :=
        Option.isNone_iff_eq_none.mp (List.mem_filter.mp hb).2
      show catLe scores cpos a b = true
      unfold catLe
      rw [decide_eq_true_eq]
      unfold jsCmp
      rw [hsa, hnb]
      show (-1 : ℚ) ≤ 0
      norm_num
  have hanti : ∀ a b, a ∈ base.mergeSort (catLe scores cpos) →
      b ∈ base.mergeSort (catLe scores cpos) →
      catLe scores cpos a b = true → catLe scores cpos b a = true → a = b := by
    intro a b ha hb h1 h2
    rw [List.mem_mergeSort] at ha hb
    rw [catLe_iff_lexLe3] at h1 h2
    have hk := lexLe3_antisymm h1 h2
    have h3 : ((jget cpos a).getD 0 : ℚ) = ((jget cpos b).getD 0 : ℚ) :=
      congrArg (fun t => t.2.2) hk
    exact hinj a b ha hb (by exact_mod_cast h3)
  exact perm_pairwise_eq hperm hs1 hs2 hanti

/-! ### Spec-side scores (for claim C1) -/

/-- Spec-side: the positively weighted edges into `tgt` from sources with
a known previous-axis position, as (weight, source position) pairs, in
link-map order. -/
def specEdgesInto (links : List (String × List (String × ℚ)))
    (prevPos : List (String × Nat)) (tgt : String) : List (ℚ × Nat) :=
  links.flatMap (fun sm =>
    match jget prevPos sm.1 with
    | none => []
    | some p =>
        (sm.2.filter (fun tw => decide (tw.1 = tgt ∧ 0 < tw.2))).map (fun tw => (tw.2, p)))

/-- Total weight of an edge list. -/
def weightSum (es : List (ℚ × Nat)) : ℚ := (es.map (fun e => e.1)).sum

/-- Sum of weight times neighbor position over an edge list. -/
def weightedPosSum (es : List (ℚ × Nat)) : ℚ := (es.map (fun e => e.1 * (e.2 : ℚ))).sum

/-- Spec-side barycentric score of `tgt` from the previous axis: the
weighted average of source positions over the qualifying edges, no score
when there is no such edge. -/
def specScoreFromPrev (links : List (String × List (String × ℚ)))
    (prevPos : List (String × Nat)) (tgt : String) : Option ℚ :=
  let es := specEdgesInto links prevPos tgt
  if 0 < weightSum es then some (weightedPosSum es / weightSum es) else none

/-- Spec-side: the positively weighted edges out of one source whose
target has a known next-axis position. -/
def edgesOutOf (nextPos : List (String × Nat)) (toMap : List (String × ℚ)) :
    List (ℚ × Nat) :=
  toMap.filterMap (fun tw =>
    match jget nextPos tw.1 with
    | none => none
    | some p => if (tw.2 : ℚ) ≤ 0 then none else some (tw.2, p))

/-- Spec-side barycentric score of `src` from the next axis. -/
def specScoreFromNext (links : List (String × List (String × ℚ)))
    (nextPos : List (String × Nat)) (src : String) : Option ℚ :=
  match jget links src with
  | none => none
  | some toMap =>
      let es := edgesOutOf nextPos toMap
      if 0 < weightSum es then some (weightedPosSum es / weightSum es) else none

theorem weightSum_nil : weightSum [] = 0 := rfl

theorem weightSum_cons (e : ℚ × Nat) (es : List (ℚ × Nat)) :
    weightSum (e :: es) = e.1 + weightSum es := by
  unfold weightSum
  rw [List.map_cons, List.sum_cons]

theorem weightedPosSum_cons (e : ℚ × Nat) (es : List (ℚ × Nat)) :
    weightedPosSum (e :: es) = e.1 * (e.2 : ℚ) + weightedPosSum es := by
  unfold weightedPosSum
  rw [List.map_cons, List.sum_cons]

theorem weightSum_append (a b : List (ℚ × Nat)) :
    weightSum (a ++ b) = weightSum a + weightSum b := by
  unfold weightSum
  rw [List.map_append, List.sum_append]

theorem weightedPosSum_append (a b : List (ℚ × Nat)) :
    weightedPosSum (a ++ b) = weightedPosSum a + weightedPosSum b := by
  unfold weightedPosSum
  rw [List.map_append, List.sum_append]

theorem accTgts_cons_skip (p : Nat) (num den : List (String × ℚ))
    (t0 : String) (w0 : ℚ) (rest : List (String × ℚ)) (hw : w0 ≤ 0) :
    accTgts p num den ((t0, w0) :: rest) = accTgts p num den rest := by
  simp [accTgts, hw]

theorem accTgts_cons_add (p : Nat) (num den : List (String × ℚ))
    (t0 : String) (w0 : ℚ) (rest : List (String × ℚ)) (hw : ¬ w0 ≤ 0) :
    accTgts p num den ((t0, w0) :: rest)
      = accTgts p (jset num t0 ((jget num t0).getD 0 + w0 * (p : ℚ)))
                  (jset den t0 ((jget den t0).getD 0 + w0)) rest := by
  simp [accTgts, hw]

theorem accTgts_get (p : Nat) :
    ∀ (toMap : List (String × ℚ)) (num den : List (String × ℚ)) (tgt : String),
    ((jget (accTgts p num den toMap).1 tgt).getD 0
        = (jget num tgt).getD 0
          + ((toMap.filter (fun tw => decide (tw.1 = tgt ∧ 0 < tw.2))).map
              (fun tw => tw.2 * (p : ℚ))).sum)
    ∧ ((jget (accTgts p num den toMap).2 tgt).getD 0
        = (jget den tgt).getD 0
          + ((toMap.filter (fun tw => decide (tw.1 = tgt ∧ 0 < tw.2))).map
              (fun tw => tw.2)).sum)
    ∧ ((jget (accTgts p num den toMap).1 tgt).isSome = true
        ↔ ((jget num tgt).isSome = true ∨
            (toMap.filter (fun tw => decide (tw.1 = tgt ∧ 0 < tw.2))) ≠ [])) := by
  intro toMap
  induction toMap with
  | nil =>
    intro num den tgt
    simp [accTgts]
  | cons tw rest ih =>
    intro num den tgt
    obtain ⟨t0, w0⟩ := tw
    by_cases hw : w0 ≤ 0
    · rw [accTgts_cons_skip p num den t0 w0 rest hw]
      rw [List.filter_cons_of_neg (by
        simp only [decide_eq_true_eq]
        rintro ⟨-, hlt⟩
        exact absurd hlt (not_lt.mpr hw))]
      exact ih num den tgt
    · rw [accTgts_cons_add p num den t0 w0 rest hw]
      obtain ⟨ihn, ihd, ihs⟩ := ih
        (jset num t0 ((jget num t0).getD 0 + w0 * (p : ℚ)))
        (jset den t0 ((jget den t0).getD 0 + w0)) tgt
      by_cases ht : t0 = tgt
      · subst ht
        rw [List.filter_cons_of_pos (by
          simp only [decide_eq_true_eq]
          exact ⟨by trivial, lt_of_not_le hw⟩)]
        refine ⟨?_, ?_, ?_⟩
        · rw [ihn, jget_jset, if_pos rfl, List.map_cons, List.sum_cons]
          simp only [Option.getD_some]
          ring
        · rw [ihd, jget_jset, if_pos rfl, List.map_cons, List.sum_cons]
          simp only [Option.getD_some]
          ring
        · rw [ihs, jget_jset, if_pos rfl]
          simp
      · rw [List.filter_cons_of_neg (by
          simp only [decide_eq_true_eq]
          rintro ⟨he, -⟩
          exact ht he)]
        have hne : ¬ tgt = t0 := fun h => ht h.symm
        refine ⟨?_, ?_, ?_⟩
        · rw [ihn, jget_jset, if_neg hne]
        · rw [ihd, jget_jset, if_neg hne]
        · rw [ihs, jget_jset, if_neg hne]

theorem accSrcs_cons_none (prevPos : List (String × Nat))
    (num den : List (String × ℚ)) (src : String)
    (toMap : List (String × ℚ)) (rest : List (String × List (String × ℚ)))
    (hp : jget prevPos src = none) :
    accSrcs prevPos num den ((src, toMap) :: rest) = accSrcs prevPos num den rest := by
  simp [accSrcs, hp]

theorem accSrcs_cons_some (prevPos : List (String × Nat))
    (num den : List (String × ℚ)) (src : String)
    (toMap : List (String × ℚ)) (rest : List (String × List (String × ℚ)))
    (p : Nat) (hp : jget prevPos src = some p) :
    accSrcs prevPos num den ((src, toMap) :: rest)
      = accSrcs prevPos (accTgts p num den toMap).1 (accTgts p num den toMap).2 rest := by
  simp [accSrcs, hp]

theorem accSrcs_get (prevPos : List (String × Nat)) :
    ∀ (links : List (String × List (String × ℚ)))
      (num den : List (String × ℚ)) (tgt : String),
    ((jget (accSrcs prevPos num den links).1 tgt).getD 0
        = (jget num tgt).getD 0 + weightedPosSum (specEdgesInto links prevPos tgt))
    ∧ ((jget (accSrcs prevPos num den links).2 tgt).getD 0
        = (jget den tgt).getD 0 + weightSum (specEdgesInto links prevPos tgt))
    ∧ ((jget (accSrcs prevPos num den links).1 tgt).isSome = true
        ↔ ((jget num tgt).isSome = true ∨ specEdgesInto links prevPos tgt ≠ [])) := by
  intro links
  induction links with
  | nil =>
    intro num den tgt
    simp [accSrcs, specEdgesInto, weightSum, weightedPosSum]
  | cons sm rest ih =>
    intro num den tgt
    obtain ⟨src, toMap⟩ := sm
    rcases hp : jget prevPos src with _ | p
    · rw [accSrcs_cons_none prevPos num den src toMap rest hp]
      have hed : specEdgesInto ((src, toMap) :: rest) prevPos tgt
          = specEdgesInto rest prevPos tgt := by
        unfold specEdgesInto
        rw [List.flatMap_cons]
        simp only [hp, List.nil_append]
      rw [hed]
      exact ih num den tgt
    · rw [accSrcs_cons_some prevPos num den src toMap rest p hp]
      have hed : specEdgesInto ((src, toMap) :: rest) prevPos tgt
          = ((toMap.filter (fun tw => decide (tw.1 = tgt ∧ 0 < tw.2))).map
              (fun tw => (tw.2, p)))
            ++ specEdgesInto rest prevPos tgt := by
        unfold specEdgesInto
        rw [List.flatMap_cons]
        simp only [hp]
      rw [hed]
      obtain ⟨ihn, ihd, ihs⟩ := ih (accTgts p num den toMap).1 (accTgts p num den toMap).2 tgt
      obtain ⟨tn, td, ts⟩ := accTgts_get p toMap num den tgt
      have hwps : weightedPosSum ((toMap.filter
            (fun tw => decide (tw.1 = tgt ∧ 0 < tw.2))).map (fun tw => (tw.2, p)))
          = ((toMap.filter (fun tw => decide (tw.1 = tgt ∧ 0 < tw.2))).map
              (fun tw => tw.2 * (p : ℚ))).sum := by
        unfold weightedPosSum
        rw [List.map_map]
        rfl
      have hws : weightSum ((toMap.filter
            (fun tw => decide (tw.1 = tgt ∧ 0 < tw.2))).map (fun tw => (tw.2, p)))
          = ((toMap.filter (fun tw => decide (tw.1 = tgt ∧ 0 < tw.2))).map
              (fun tw => tw.2)).sum := by
        unfold weightSum
        rw [List.map_map]
        rfl
      refine ⟨?_, ?_, ?_⟩
      · rw [ihn, tn, weightedPosSum_append, hwps]
        ring
      · rw [ihd, td, weightSum_append, hws]
        ring
      · rw [ihs, ts]
        constructor
        · rintro ((h | h) | h)
          · exact Or.inl h
          · refine Or.inr ?_
            intro hc
            rcases List.append_eq_nil.mp hc with ⟨h1, -⟩
            exact h (by simpa using List.map_eq_nil_iff.mp h1)
          · exact Or.inr (fun hc => h (List.append_eq_nil.mp hc).2)
        · rintro (h | h)
          · exact Or.inl (Or.inl h)
          · by_cases hf : (toMap.filter (fun tw => decide (tw.1 = tgt ∧ 0 < tw.2))) = []
            · refine Or.inr ?_
              intro hc
              apply h
              rw [← hc, hf]
              simp
            · exact Or.inl (Or.inr hf)

theorem accTgts_keys_nodup (p : Nat) :
    ∀ (toMap : List (String × ℚ)) (num den : List (String × ℚ)),
    (jkeys num).Nodup → (jkeys den).Nodup →
    (jkeys (accTgts p num den toMap).1).Nodup ∧ (jkeys (accTgts p num den toMap).2).Nodup := by
  intro toMap
  induction toMap with
  | nil => intro num den h1 h2; exact ⟨h1, h2⟩
  | cons tw rest ih =>
    intro num den h1 h2
    obtain ⟨t0, w0⟩ := tw
    by_cases hw : w0 ≤ 0
    · rw [accTgts_cons_skip p num den t0 w0 rest hw]
      exact ih num den h1 h2
    · rw [accTgts_cons_add p num den t0 w0 rest hw]
      exact ih _ _ (jkeys_jset_nodup _ _ h1) (jkeys_jset_nodup _ _ h2)

theorem accSrcs_keys_nodup (prevPos : List (String × Nat)) :
    ∀ (links : List (String × List (String × ℚ)))
      (num den : List (String × ℚ)),
    (jkeys num).Nodup → (jkeys den).Nodup →
    (jkeys (accSrcs prevPos num den links).1).Nodup
      ∧ (jkeys (accSrcs prevPos num den links).2).Nodup := by
  intro links
  induction links with
  | nil => intro num den h1 h2; exact ⟨h1, h2⟩
  | cons sm rest ih =>
    intro num den h1 h2
    obtain ⟨src, toMap⟩ := sm
    rcases hp : jget prevPos src with _ | p
    · rw [accSrcs_cons_none prevPos num den src toMap rest hp]
      exact ih num den h1 h2
    · rw [accSrcs_cons_some prevPos num den src toMap rest p hp]
      obtain ⟨k1, k2⟩ := accTgts_keys_nodup p toMap num den h1 h2
      exact ih _ _ k1 k2

theorem divideScores_cons (den acc : List (String × ℚ)) (t0 : String) (n0 : ℚ)
    (rest : List (String × ℚ)) :
    divideScores den acc ((t0, n0) :: rest)
      = divideScores den
          (if 0 < (jget den t0).getD 0 then jset acc t0 (n0 / (jget den t0).getD 0)
           else acc) rest := rfl

theorem divideScores_get_none (den : List (String × ℚ)) :
    ∀ (numl acc : List (String × ℚ)) (tgt : String), jget numl tgt = none →
    jget (divideScores den acc numl) tgt = jget acc tgt := by
  intro numl
  induction numl with
  | nil => intro acc tgt _; rfl
  | cons p rest ih =>
    intro acc tgt h
    obtain ⟨t0, n0⟩ := p
    have ht : ¬ t0 = tgt := by
      intro he
      rw [show jget ((t0, n0) :: rest) tgt = if t0 = tgt then some n0 else jget rest tgt
        from rfl, if_pos he] at h
      exact Option.some_ne_none n0 h
    have hrest : jget rest tgt = none := by
      rwa [show jget ((t0, n0) :: rest) tgt = if t0 = tgt then some n0 else jget rest tgt
        from rfl, if_neg ht] at h
    rw [divideScores_cons, ih _ tgt hrest]
    by_cases hd : 0 < (jget den t0).getD 0
    · rw [if_pos hd, jget_jset, if_neg (fun h2 => ht h2.symm)]
    · rw [if_neg hd]

theorem divideScores_get_some (den : List (String × ℚ)) :
    ∀ (numl acc : List (String × ℚ)) (tgt : String) (n : ℚ),
    (jkeys numl).Nodup → (∀ k ∈ jkeys numl, jget acc k = none) →
    jget numl tgt = some n →
    jget (divideScores den acc numl) tgt
      = if 0 < (jget den tgt).getD 0 then some (n / (jget den tgt).getD 0) else none := by
  intro numl
  induction numl with
  | nil =>
    intro acc tgt n _ _ h
    exact absurd h (by simp [jget])
  | cons p rest ih =>
    intro acc tgt n hnd hdisj h
    obtain ⟨t0, n0⟩ := p
    have hkey : t0 ∉ jkeys rest := by
      have := List.nodup_cons.mp (by simpa [jkeys_cons] using hnd)
      exact this.1
    have htail : (jkeys rest).Nodup := by
      have := List.nodup_cons.mp (by simpa [jkeys_cons] using hnd)
      exact this.2
    rw [divideScores_cons]
    by_cases ht : t0 = tgt
    · subst ht
      have hn : n0 = n := by
        rw [show jget ((t0, n0) :: rest) t0 = if t0 = t0 then some n0 else jget rest t0
          from rfl, if_pos rfl] at h
        exact (Option.some.injEq _ _).mp h
      subst hn
      have hrest : jget rest t0 = none := (jget_eq_none_iff rest t0).mpr hkey
      by_cases hd : 0 < (jget den t0).getD 0
      · rw [if_pos hd, divideScores_get_none den rest _ t0 hrest, jget_jset, if_pos rfl,
          if_pos hd]
      · rw [if_neg hd, divideScores_get_none den rest _ t0 hrest,
          hdisj t0 (by rw [jkeys_cons]; exact List.mem_cons_self _ _), if_neg hd]
    · have hrest : jget rest tgt = some n := by
        rwa [show jget ((t0, n0) :: rest) tgt = if t0 = tgt then some n0 else jget rest tgt
          from rfl, if_neg ht] at h
      have hdisj2 : ∀ k ∈ jkeys rest,
          jget (if 0 < (jget den t0).getD 0 then jset acc t0 (n0 / (jget den t0).getD 0)
            else acc) k = none := by
        intro k hk
        have hk0 : ¬ k = t0 := fun h2 => hkey (h2 ▸ hk)
        by_cases hd : 0 < (jget den t0).getD 0
        · rw [if_pos hd, jget_jset, if_neg hk0]
          exact hdisj k (by rw [jkeys_cons]; exact List.mem_cons_of_mem _ hk)
        · rw [if_neg hd]
          exact hdisj k (by rw [jkeys_cons]; exact List.mem_cons_of_mem _ hk)
      exact ih _ tgt n htail hdisj2 hrest

/-- Characterization of `scoresFromPrev` (the forward-sweep scores): the
lookup of any label equals the spec-side weighted average. -/
theorem scoresFromPrev_spec (st : List AxisEntry) (pls : PairLinks) (i : Nat)
    (hi : ¬ i = 0) (tgt : String) :
    jget (scoresFromPrev st pls i) tgt
      = specScoreFromPrev (pls.getD (i - 1) []) (mkPos (catsAt st (i - 1))) tgt := by
  unfold scoresFromPrev
  rw [if_neg hi]
  show jget (divideScores
      (accSrcs (mkPos (catsAt st (i - 1))) [] [] (pls.getD (i - 1) [])).2 []
      (accSrcs (mkPos (catsAt st (i - 1))) [] [] (pls.getD (i - 1) [])).1) tgt = _
  obtain ⟨hnum, hden, hsome⟩ :=
    accSrcs_get (mkPos (catsAt st (i - 1))) (pls.getD (i - 1) []) [] [] tgt
  rw [show jget ([] : List (String × ℚ)) tgt = none from rfl] at hnum hden hsome
  simp only [Option.getD_none, Option.isSome_none, Bool.false_eq_true, false_or,
    zero_add] at hnum hden hsome
  unfold specScoreFromPrev
  rcases hv : jget (accSrcs (mkPos (catsAt st (i - 1))) [] []
      (pls.getD (i - 1) [])).1 tgt with _ | n
  · rw [divideScores_get_none _ _ _ _ hv]
    have hes : specEdgesInto (pls.getD (i - 1) []) (mkPos (catsAt st (i - 1))) tgt = [] := by
      by_contra hne
      have h2 := hsome.mpr hne
      rw [hv] at h2
      simp at h2
    rw [hes]
    rw [if_neg (by rw [weightSum_nil]; exact lt_irrefl 0)]
    rfl
  · obtain ⟨k1, -⟩ := accSrcs_keys_nodup (mkPos (catsAt st (i - 1)))
      (pls.getD (i - 1) []) [] [] (by simp [jkeys]) (by simp [jkeys])
    rw [divideScores_get_some _ _ _ _ _ k1
      (fun k _ => show jget ([] : List (String × ℚ)) k = none from rfl) hv]
    rw [hv] at hnum
    simp only [Option.getD_some] at hnum
    rw [hden, hnum]

theorem accNext_cons_none (nextPos : List (String × Nat)) (n d : ℚ) (t0 : String)
    (w0 : ℚ) (rest : List (String × ℚ)) (hp : jget nextPos t0 = none) :
    accNext nextPos n d ((t0, w0) :: rest) = accNext nextPos n d rest := by
  simp [accNext, hp]

theorem accNext_cons_skip (nextPos : List (String × Nat)) (n d : ℚ) (t0 : String)
    (w0 : ℚ) (rest : List (String × ℚ)) (p : Nat) (hp : jget nextPos t0 = some p)
    (hw : w0 ≤ 0) :
    accNext nextPos n d ((t0, w0) :: rest) = accNext nextPos n d rest := by
  simp [accNext, hp, hw]

theorem accNext_cons_add (nextPos : List (String × Nat)) (n d : ℚ) (t0 : String)
    (w0 : ℚ) (rest : List (String × ℚ)) (p : Nat) (hp : jget nextPos t0 = some p)
    (hw : ¬ w0 ≤ 0) :
    accNext nextPos n d ((t0, w0) :: rest)
      = accNext nextPos (n + w0 * (p : ℚ)) (d + w0) rest := by
  simp [accNext, hp, hw]

theorem accNext_eq (nextPos : List (String × Nat)) :
    ∀ (toMap : List (String × ℚ)) (n d : ℚ),
    accNext nextPos n d toMap
      = (n + weightedPosSum (edgesOutOf nextPos toMap),
         d + weightSum (edgesOutOf nextPos toMap)) := by
  intro toMap
  induction toMap with
  | nil =>
    intro n d
    simp [accNext, edgesOutOf, weightSum, weightedPosSum]
  | cons tw rest ih =>
    intro n d
    obtain ⟨t0, w0⟩ := tw
    rcases hp : jget nextPos t0 with _ | p
    · rw [accNext_cons_none nextPos n d t0 w0 rest hp]
      have hed : edgesOutOf nextPos ((t0, w0) :: rest) = edgesOutOf nextPos rest := by
        unfold edgesOutOf
        rw [List.filterMap_cons]
        simp only [hp]
      rw [hed]
      exact ih n d
    · by_cases hw : w0 ≤ 0
      · rw [accNext_cons_skip nextPos n d t0 w0 rest p hp hw]
        have hed : edgesOutOf nextPos ((t0, w0) :: rest) = edgesOutOf nextPos rest := by
          unfold edgesOutOf
          rw [List.filterMap_cons]
          simp only [hp, if_pos hw]
        rw [hed]
        exact ih n d
      · rw [accNext_cons_add nextPos n d t0 w0 rest p hp hw]
        have hed : edgesOutOf nextPos ((t0, w0) :: rest)
            = (w0, p) :: edgesOutOf nextPos rest := by
          unfold edgesOutOf
          rw [List.filterMap_cons]
          simp only [hp, if_neg hw]
        rw [hed, ih, weightSum_cons, weightedPosSum_cons, Prod.mk.injEq]
        constructor <;> ring

theorem collectNext_cons (nextPos : List (String × Nat)) (acc : List (String × ℚ))
    (src : String) (toMap : List (String × ℚ))
    (rest : List (String × List (String × ℚ))) :
    collectNext nextPos acc ((src, toMap) :: rest)
      = collectNext nextPos
          (if 0 < (accNext nextPos 0 0 toMap).2
           then jset acc src ((accNext nextPos 0 0 toMap).1 / (accNext nextPos 0 0 toMap).2)
           else acc) rest := rfl

theorem collectNext_get_none (nextPos : List (String × Nat)) :
    ∀ (links : List (String × List (String × ℚ))) (acc : List (String × ℚ))
      (src : String), jget links src = none →
    jget (collectNext nextPos acc links) src = jget acc src := by
  intro links
  induction links with
  | nil => intro acc src _; rfl
  | cons sm rest ih =>
    intro acc src h
    obtain ⟨s0, toMap⟩ := sm
    have hs : ¬ s0 = src := by
      intro he
      rw [show jget ((s0, toMap) :: rest) src = if s0 = src then some toMap else jget rest src
        from rfl, if_pos he] at h
      exact Option.some_ne_none toMap h
    have hrest : jget rest src = none := by
      rwa [show jget ((s0, toMap) :: rest) src = if s0 = src then some toMap else jget rest src
        from rfl, if_neg hs] at h
    rw [collectNext_cons, ih _ src hrest]
    by_cases hd : 0 < (accNext nextPos 0 0 toMap).2
    · rw [if_pos hd, jget_jset, if_neg (fun h2 => hs h2.symm)]
    · rw [if_neg hd]

theorem collectNext_get_some (nextPos : List (String × Nat)) :
    ∀ (links : List (String × List (String × ℚ))) (acc : List (String × ℚ))
      (src : String) (toMap : List (String × ℚ)),
    (jkeys links).Nodup → (∀ k ∈ jkeys links, jget acc k = none) →
    jget links src = some toMap →
    jget (collectNext nextPos acc links) src
      = if 0 < (accNext nextPos 0 0 toMap).2
        then some ((accNext nextPos 0 0 toMap).1 / (accNext nextPos 0 0 toMap).2)
        else none := by
  intro links
  induction links with
  | nil =>
    intro acc src toMap _ _ h
    exact absurd h (by simp [jget])
  | cons sm rest ih =>
    intro acc src toMap hnd hdisj h
    obtain ⟨s0, tm0⟩ := sm
    have hkey : s0 ∉ jkeys rest := by
      have := List.nodup_cons.mp (by simpa [jkeys_cons] using hnd)
      exact this.1
    have htail : (jkeys rest).Nodup := by
      have := List.nodup_cons.mp (by simpa [jkeys_cons] using hnd)
      exact this.2
    rw [collectNext_cons]
    by_cases hs : s0 = src
    · subst hs
      have hm : tm0 = toMap := by
        rw [show jget ((s0, tm0) :: rest) s0 = if s0 = s0 then some tm0 else jget rest s0
          from rfl, if_pos rfl] at h
        exact (Option.some.injEq _ _).mp h
      subst hm
      have hrest : jget rest s0 = none := (jget_eq_none_iff rest s0).mpr hkey
      by_cases hd : 0 < (accNext nextPos 0 0 tm0).2
      · rw [if_pos hd, collectNext_get_none nextPos rest _ s0 hrest, jget_jset, if_pos rfl,
          if_pos hd]
      · rw [if_neg hd, collectNext_get_none nextPos rest _ s0 hrest,
          hdisj s0 (by rw [jkeys_cons]; exact List.mem_cons_self _ _), if_neg hd]
    · have hrest : jget rest src = some toMap := by
        rwa [show jget ((s0, tm0) :: rest) src = if s0 = src then some tm0 else jget rest src
          from rfl, if_neg hs] at h
      have hdisj2 : ∀ k ∈ jkeys rest,
          jget (if 0 < (accNext nextPos 0 0 tm0).2
            then jset acc s0 ((accNext nextPos 0 0 tm0).1 / (accNext nextPos 0 0 tm0).2)
            else acc) k = none := by
        intro k hk
        have hk0 : ¬ k = s0 := fun h2 => hkey (h2 ▸ hk)
        by_cases hd : 0 < (accNext nextPos 0 0 tm0).2
        · rw [if_pos hd, jget_jset, if_neg hk0]
          exact hdisj k (by rw [jkeys_cons]; exact List.mem_cons_of_mem _ hk)
        · rw [if_neg hd]
          exact hdisj k (by rw [jkeys_cons]; exact List.mem_cons_of_mem _ hk)
      exact ih _ src toMap htail hdisj2 hrest

/-- Characterization of `scoresFromNext` (the backward-sweep scores): the
lookup of any label equals the spec-side weighted average, provided the
link map for this axis pair has no duplicate source keys (which holds
for every map `buildPairLinks` produces). -/
theorem scoresFromNext_spec (st : List AxisEntry) (pls : PairLinks) (i : Nat)
    (hle : ¬ st.length ≤ i + 1) (hkeys : (jkeys (pls.getD i [])).Nodup) (src : String) :
    jget (scoresFromNext st pls i) src
      = specScoreFromNext (pls.getD i []) (mkPos (catsAt st (i + 1))) src := by
  unfold scoresFromNext
  rw [if_neg hle]
  unfold specScoreFromNext
  rcases hv : jget (pls.getD i []) src with _ | toMap
  · rw [collectNext_get_none _ _ _ _ hv]
    rfl
  · rw [collectNext_get_some _ _ _ _ _ hkeys
      (fun k _ => show jget ([] : List (String × ℚ)) k = none from rfl) hv]
    rw [accNext_eq]
    simp only [zero_add]

theorem splitMissing_fst (missingLabel : String) (hm : missingLabel ≠ "")
    (cats : List String) (tot : List (String × Nat)) :
    (splitMissing missingLabel cats tot).1 = cats.filter (fun l => l ≠ missingLabel) := by
  unfold splitMissing
  simp [hm]

theorem catsAt_set (st : List AxisEntry) (i : Nat) (e : AxisEntry) (hi : i < st.length) :
    catsAt (st.set i e) i = e.categories := by
  unfold catsAt
  rw [List.getD_eq_getElem?_getD, List.getElem?_set_self hi, Option.getD_some]

/-- Claim C1: over any sweep visit of an unlocked axis `i`, (a) the
forward (resp. backward) sweep step is exactly a reorder of axis `i` by
the scores computed from the previous (resp. next) axis; (b) the score of
every label equals the spec-side weighted average of the current integer
positions of its neighbor-axis categories over the positively weighted
edges whose neighbor label has a known position, labels with no such edge
getting no score; and (c) the reorder re-sorts the non-sentinel
categories of axis `i`: scored categories by score ascending with ties
broken by prior order, unscored categories after them in their relative
prior order, the sentinel re-appended last exactly when its count is
nonzero. -/
theorem claim_C1_barycentric_sweep (st : List AxisEntry) (pls : PairLinks)
    (missingLabel : String) (lockPos : Option Nat) (i : Nat)
    (hm : missingLabel ≠ "") (hi : i < st.length)
    (hnodup : (catsAt st i).Nodup)
    (hlock : ¬ lockPos = some i)
    (hkeys : (jkeys (pls.getD i [])).Nodup) :
    (fwdStep missingLabel pls lockPos st i
        = applyReorder missingLabel st i (scoresFromPrev st pls i))
    ∧ (bwdStep missingLabel pls lockPos st i
        = applyReorder missingLabel st i (scoresFromNext st pls i))
    ∧ (¬ i = 0 → ∀ tgt, jget (scoresFromPrev st pls i) tgt
        = specScoreFromPrev (pls.getD (i - 1) []) (mkPos (catsAt st (i - 1))) tgt)
    ∧ (¬ st.length ≤ i + 1 → ∀ src, jget (scoresFromNext st pls i) src
        = specScoreFromNext (pls.getD i []) (mkPos (catsAt st (i + 1))) src)
    ∧ (∀ scores, catsAt (applyReorder missingLabel st i scores) i
        = specResort scores (mkPos (catsAt st i))
            ((catsAt st i).filter (fun l => l ≠ missingLabel))
          ++ (if 0 < (jget (st.getD i default).totalsByCategory missingLabel).getD 0
              then [missingLabel] else [])) := by
  refine ⟨?_, ?_, ?_, ?_, ?_⟩
  · unfold fwdStep
    rw [if_neg hlock]
  · unfold bwdStep
    rw [if_neg hlock]
  · intro hi0 tgt
    exact scoresFromPrev_spec st pls i hi0 tgt
  · intro hle src
    exact scoresFromNext_spec st pls i hle hkeys src
  · intro scores
    have hinj : ∀ u v, u ∈ (catsAt st i).filter (fun l => l ≠ missingLabel) →
        v ∈ (catsAt st i).filter (fun l => l ≠ missingLabel) →
        (jget (mkPos (catsAt st i)) u).getD 0 = (jget (mkPos (catsAt st i)) v).getD 0 →
        u = v := by
      intro u v hu hv he
      exact mkPos_getD_inj hnodup (List.mem_of_mem_filter hu)
        (List.mem_of_mem_filter hv) he
    have hmono : ((catsAt st i).filter (fun l => l ≠ missingLabel)).Pairwise
        (fun u v => (jget (mkPos (catsAt st i)) u).getD 0
          < (jget (mkPos (catsAt st i)) v).getD 0) :=
      List.Pairwise.sublist (List.filter_sublist _) (mkPos_pairwise_lt hnodup)
    have hsort := mergeSort_catLe_eq_specResort scores (mkPos (catsAt st i))
      ((catsAt st i).filter (fun l => l ≠ missingLabel)) hinj hmono
    unfold applyReorder
    rw [catsAt_set _ _ _ hi]
    show (if (splitMissing missingLabel (st.getD i default).categories
            (st.getD i default).totalsByCategory).2
          then ((splitMissing missingLabel (st.getD i default).categories
                  (st.getD i default).totalsByCategory).1.mergeSort
                 (catLe scores (mkPos (st.getD i default).categories))) ++ [missingLabel]
          else (splitMissing missingLabel (st.getD i default).categories
                  (st.getD i default).totalsByCategory).1.mergeSort
                 (catLe scores (mkPos (st.getD i default).categories))) = _
    rw [splitMissing_snd missingLabel hm, splitMissing_fst missingLabel hm]
    have hcats : (st.getD i default).categories = catsAt st i := rfl
    rw [hcats, hsort]
    by_cases hd : 0 < (jget (st.getD i default).totalsByCategory missingLabel).getD 0
    · rw [if_pos (decide_eq_true hd), if_pos hd]
    · rw [if_neg (fun h => hd (of_decide_eq_true h)), if_neg hd, List.append_nil]

/-- Witness for claim C1: the middle axis of the concrete three-axis
configuration, with the first axis locked. -/
theorem claim_C1_witness :
    (("Missing" : String) ≠ "" ∧ 1 < exState3.length ∧ (catsAt exState3 1).Nodup
      ∧ ¬ (some 0 : Option Nat) = some 1
      ∧ (jkeys ((buildPairLinks exState3 exLinks).getD 1 [])).Nodup)
    ∧ ((fwdStep "Missing" (buildPairLinks exState3 exLinks) (some 0) exState3 1
        = applyReorder "Missing" exState3 1
            (scoresFromPrev exState3 (buildPairLinks exState3 exLinks) 1))
    ∧ (bwdStep "Missing" (buildPairLinks exState3 exLinks) (some 0) exState3 1
        = applyReorder "Missing" exState3 1
            (scoresFromNext exState3 (buildPairLinks exState3 exLinks) 1))
    ∧ (¬ (1 : Nat) = 0 → ∀ tgt,
        jget (scoresFromPrev exState3 (buildPairLinks exState3 exLinks) 1) tgt
        = specScoreFromPrev ((buildPairLinks exState3 exLinks).getD 0 [])
            (mkPos (catsAt exState3 0)) tgt)
    ∧ (¬ exState3.length ≤ 1 + 1 → ∀ src,
        jget (scoresFromNext exState3 (buildPairLinks exState3 exLinks) 1) src
        = specScoreFromNext ((buildPairLinks exState3 exLinks).getD 1 [])
            (mkPos (catsAt exState3 2)) src)
    ∧ (∀ scores, catsAt (applyReorder "Missing" exState3 1 scores) 1
        = specResort scores (mkPos (catsAt exState3 1))
            ((catsAt exState3 1).filter (fun l => l ≠ "Missing"))
          ++ (if 0 < (jget (exState3.getD 1 default).totalsByCategory "Missing").getD 0
              then ["Missing"] else []))) :=
  ⟨⟨by decide, by decide, by decide, by decide, by decide⟩,
   claim_C1_barycentric_sweep exState3 (buildPairLinks exState3 exLinks) "Missing"
     (some 0) 1 (by decide) (by decide) (by decide) (by decide) (by decide)⟩

end Alluvial
